import Mathlib

/-!
# String and categorical encoders of mlpack: a verification development

Shallow embedding of

* `core/data/tokenizers/split_by_any_of.hpp` (the delimiter tokenizer),
* `core/data/encoding_policies/dictionary_encoding.hpp` (the dictionary
  encoding policy),
* `core/data/one_hot_encoding_impl.hpp` (one-hot encoding of a label row
  and of the rows named by a list of indices),
* `core/data/word_2_vec.hpp` (the vocabulary built by `Fit`),
* `methods/ann/activation_functions/sin_function.hpp`,
* the data of `tests/string_encoding_test.cpp`,

and a model of the bag-of-words and dictionary encoders, which are not among
the sources and are written after the specification, followed by the
theorems proved about them.

Conventions.  A `boost::string_view` is the list of its bytes; a call that
mutates a view returns the new view next to its result.  `npos` is `none`.
A `while` loop is a function with a fuel argument that returns `none` when
the fuel runs out; the theorems show that the fuel handed over by the
wrappers always suffices.  An armadillo matrix is its dimensions and its
column-major buffer; an access outside the buffer (undefined behaviour in
C++) makes the operation return `none`.
-/

namespace mlpack

/-! ## Bytes -/

/-- One `char` of a string, as its 8-bit pattern. -/
abbrev Byte := Fin 256

/-- Number of bits of a `char` (the constant of `<climits>`). -/
def CHAR_BIT : Nat := 8

/-- The numeric value of a `char` where `char` is signed: patterns from 128
on are the negative values. -/
def charValue (b : Byte) : Int :=
  if b.val < 128 then (b.val : Int) else (b.val : Int) - 256

/-- The `static_cast<unsigned char>` of a `char` value: reduction modulo
`2 ^ CHAR_BIT`. -/
def toUChar (c : Int) : Nat := (c % (2 ^ CHAR_BIT : Nat)).toNat

/-! ## `SplitByAnyOf` -/

/-- The tokenizer object: its only member is the mask, a
`std::array<bool, 1 << CHAR_BIT>`. -/
structure SplitByAnyOf where
  /-- The mask that corresponds to the delimiters. -/
  mask : List Bool

namespace SplitByAnyOf

/-- The constructor `SplitByAnyOf(delimiters)`: `mask.fill(false)`, then
`mask[static_cast<unsigned char>(symbol)] = true` for every symbol. -/
def new (delimiters : List Byte) : SplitByAnyOf :=
  ⟨delimiters.foldl (fun mask symbol => mask.set (toUChar (charValue symbol)) true)
    (List.replicate (1 <<< CHAR_BIT) false)⟩

/-- The test `mask[static_cast<unsigned char>(c)]` of `FindFirstDelimiter`. -/
def isDelimiter (t : SplitByAnyOf) (c : Byte) : Bool :=
  t.mask.getD (toUChar (charValue c)) false

/-- The method `FindFirstDelimiter(str)`: the positions `0, 1, ..., str.size() - 1` are
tried in order and the first one whose byte is flagged in the mask is
returned; `none` is `str.npos`. -/
def FindFirstDelimiter (t : SplitByAnyOf) (str : List Byte) : Option Nat :=
  (List.range str.length).find? fun pos =>
    match str[pos]? with
    | some c => t.isDelimiter c
    | none => false

/-- The `while (retval.empty())` loop of `operator()`, one iteration per unit
of fuel.  The result is the returned token and the view left in `str`. -/
def loop (t : SplitByAnyOf) : Nat → List Byte → Option (List Byte × List Byte)
  | 0, _ => none
  | fuel + 1, str =>
    match t.FindFirstDelimiter str with
    | none => some (str, [])
    | some pos =>
      let retval := str.take pos
      let str := str.drop (pos + 1)
      if retval.isEmpty then loop t fuel str else some (retval, str)

/-- The call operator `operator()(str)`: the loop, with one unit of fuel per byte of the view
and one more. -/
def call (t : SplitByAnyOf) (str : List Byte) : Option (List Byte × List Byte) :=
  t.loop (str.length + 1) str

/-- The method `IsTokenEmpty(token)`: `token.empty()`. -/
def IsTokenEmpty (token : List Byte) : Bool := token.isEmpty

/-- The consumer loop of the tokenizer (as in `word2vec::Fit`):
`token = tokenizer(strView); while (!token.empty()) { push token;
token = tokenizer(strView); }`, one tokenizer call per unit of fuel. -/
def drainLoop (t : SplitByAnyOf) : Nat → List Byte → Option (List (List Byte))
  | 0, _ => none
  | fuel + 1, strView =>
    match t.call strView with
    | none => none
    | some (token, strView) =>
      if IsTokenEmpty token then some []
      else (drainLoop t fuel strView).map (token :: ·)

/-- All tokens of a view, in the order the tokenizer returns them. -/
def drain (t : SplitByAnyOf) (str : List Byte) : Option (List (List Byte)) :=
  t.drainLoop (str.length + 1) str

/-- Proof device: the token and the remaining view of one call in closed
form, by recursion on the view (`loop_eq` shows that `loop` computes it). -/
def nextToken (t : SplitByAnyOf) : List Byte → List Byte × List Byte
  | [] => ([], [])
  | c :: cs =>
    if t.isDelimiter c then nextToken t cs
    else (c :: cs.takeWhile (fun c => !t.isDelimiter c),
          (cs.dropWhile fun c => !t.isDelimiter c).tail)

/-- Proof device: the non-empty pieces of `s` cut at the bytes flagged in
the mask. -/
def runs (t : SplitByAnyOf) (s : List Byte) : List (List Byte) :=
  (s.splitOnP t.isDelimiter).filter fun piece => !piece.isEmpty

end SplitByAnyOf

/-! ## Armadillo matrices -/

/-- A dense armadillo matrix: `n_rows`, `n_cols` and the column-major buffer
`mem`, in which element `(row, col)` lives at `row + col * n_rows`.  The
element type is instantiated with an exact numeric type (ids, zeros and ones
are stored without rounding). -/
structure Mat where
  n_rows : Nat
  n_cols : Nat
  mem : List Nat
  deriving DecidableEq

namespace Mat

/-- The call `output.zeros(rows, cols)`: resize to `rows x cols` and fill with zeros,
whatever the matrix held before. -/
def zeros (_output : Mat) (rows cols : Nat) : Mat :=
  ⟨rows, cols, List.replicate (rows * cols) 0⟩

/-- The assignment `output.at(row, col) = elem`: the unchecked element access writes the
buffer at `row + col * n_rows`; outside the buffer the behaviour is
undefined (`none`). -/
def atPut (output : Mat) (row col elem : Nat) : Option Mat :=
  if row + col * output.n_rows < output.mem.length then
    some { output with mem := output.mem.set (row + col * output.n_rows) elem }
  else none

/-- The assignment `output(row, col) = elem`: the checked element access refuses an index
with `row >= n_rows` or `col >= n_cols` (`none`). -/
def put (output : Mat) (row col elem : Nat) : Option Mat :=
  if row < output.n_rows ∧ col < output.n_cols then output.atPut row col elem else none

/-- Reading element `(row, col)`. -/
def entry (m : Mat) (row col : Nat) : Nat := m.mem.getD (row + col * m.n_rows) 0

/-- Row `row` of the matrix, from column `0` to column `n_cols - 1`. -/
def row (m : Mat) (row : Nat) : List Nat := (List.range m.n_cols).map fun col => m.entry row col

/-- The buffer has exactly `n_rows * n_cols` elements. -/
def WF (m : Mat) : Prop := m.mem.length = m.n_rows * m.n_cols

end Mat

/-! ## The dictionary encoding policy -/

namespace DictionaryEncoding

/-- The function `InitMatrix(output, datasetSize, colSize, mappingsSize)`:
`output.zeros(datasetSize, colSize)`; the last parameter is unnamed and
unused. -/
def InitMatrix (output : Mat) (datasetSize colSize _mappingsSize : Nat) : Mat :=
  output.zeros datasetSize colSize

/-- The matrix overload `Encode(elem, output, row, col)`:
`output.at(row, col) = elem`. -/
def Encode (elem : Nat) (output : Mat) (row col : Nat) : Option Mat :=
  output.atPut row col elem

/-- The vector overload `Encode(output, elem)`: `output.push_back(elem)`. -/
def EncodeVector (output : List Nat) (elem : Nat) : List Nat := output.concat elem

/-- Modelled from the spec: the orchestrator that drives the policy is not
among the sources; by section 4.4 it walks over the ids of one row in their
original order and calls the placement routine with the row index and each
id, here `Encode(id, output, row, col)` at the columns `col, col + 1, ...`. -/
def encodeRowFrom (row : Nat) : List Nat → Nat → Mat → Option Mat
  | [], _, output => some output
  | id :: ids, col, output => (Encode id output row col).bind (encodeRowFrom row ids (col + 1))

/-- Modelled from the spec: the outer loop of the orchestrator (section 4.4), one
row of ids after the other, the rows numbered from `row` on. -/
def encodeRowsFrom : List (List Nat) → Nat → Mat → Option Mat
  | [], _, output => some output
  | ids :: rest, row, output =>
    (encodeRowFrom row ids 0 output).bind (encodeRowsFrom rest (row + 1))

/-- Modelled from the spec: the padded encoding of a list of id rows,
`InitMatrix` followed by `Encode(id, output, r, c)` for every row `r` and
every position `c` of that row. -/
def encodeDense (rows : List (List Nat)) (output : Mat)
    (datasetSize colSize mappingsSize : Nat) : Option Mat :=
  encodeRowsFrom rows 0 (InitMatrix output datasetSize colSize mappingsSize)

/-- Modelled from the spec: the unpadded encoding of one row, the ids fed
one by one to the vector overload of `Encode`, from an empty vector. -/
def encodeVector (ids : List Nat) : List Nat := ids.foldl EncodeVector []

/-- The longest row length of a list of id rows. -/
def maxRowLength (rows : List (List Nat)) : Nat :=
  rows.foldl (fun m ids => max m ids.length) 0

end DictionaryEncoding

/-! ## One-hot encoding of a label row -/

/-- The modulus of `size_t` arithmetic. -/
def SIZE_MODULUS : Nat := 2 ^ 64

/-- Subtraction of `size_t` values: it wraps around below zero.  (The
additions of the embedded code only count elements of a container and are
kept in `Nat`.) -/
def sizeSub (a b : Nat) : Nat := if b ≤ a then a - b else a + SIZE_MODULUS - b

/-- A `std::unordered_map<Key, size_t>` as the list of its entries (one per
key). -/
abbrev LabelMap (κ : Type) := List (κ × Nat)

namespace LabelMap

variable {κ : Type} [DecidableEq κ]

/-- The call `labelMap.count(key)`: 1 when the key is present, 0 otherwise. -/
def count (m : LabelMap κ) (key : κ) : Nat := if (m.lookup key).isSome then 1 else 0

/-- Reading `labelMap[key]`: the stored value (a value-initialised 0 for an
absent key). -/
def get (m : LabelMap κ) (key : κ) : Nat := (m.lookup key).getD 0

/-- The assignment `labelMap[key] = value`: the entry of a present key is
overwritten, an absent key gets a new entry. -/
def assign (m : LabelMap κ) (key : κ) (value : Nat) : LabelMap κ :=
  if (m.lookup key).isSome then m.map fun e => if e.1 = key then (key, value) else e
  else m ++ [(key, value)]

end LabelMap

/-- The local variables of the first loop of `OneHotEncoding`. -/
structure OneHotState (κ : Type) where
  labelMap : LabelMap κ
  curLabel : Nat
  labels : List Nat

namespace OneHotEncoding

variable {κ : Type} [DecidableEq κ]

/-- The body of the first loop at position `i`, where `labelsIn[i] = x`.
The map is keyed by `OutputType::elem_type`, not by the element type of
`labelsIn`: `conv` is the implicit conversion that C++ applies to
`labelsIn[i]` wherever it is handed to `count` or to `operator[]`. -/
def mapStep {α : Type} (conv : α → κ) (x : α) (i : Nat) (st : OneHotState κ) :
    OneHotState κ :=
  if st.labelMap.count (conv x) ≠ 0 then
    { st with labels := st.labels.set i (sizeSub (st.labelMap.get (conv x)) 1) }
  else
    { labelMap := st.labelMap.assign (conv x) (st.curLabel + 1)
      labels := st.labels.set i st.curLabel
      curLabel := st.curLabel + 1 }

/-- The first loop, `for (i = 0; i < labelsIn.n_elem; ++i)`, from position
`i` on; the list is what remains of `labelsIn` from there. -/
def mapLoop {α : Type} (conv : α → κ) : List α → Nat → OneHotState κ → OneHotState κ
  | [], _, st => st
  | x :: rest, i, st => mapLoop conv rest (i + 1) (mapStep conv x i st)

/-- The second loop, `output(i, labels[i]) = 1` for the `count` positions
from `i` on. -/
def fillLoop (labels : List Nat) : Nat → Nat → Mat → Option Mat
  | 0, _, output => some output
  | count + 1, i, output =>
    (output.put i (labels.getD i 0) 1).bind (fillLoop labels count (i + 1))

/-- The state before the first loop: `labels.set_size(n)` (its content,
unspecified in C++, is overwritten position by position), an empty map and
`curLabel = 0`. -/
def initState (n : Nat) : OneHotState κ := ⟨[], 0, List.replicate n 0⟩

/-- The keys of the map in the order of their insertion. -/
def keys (st : OneHotState κ) : List κ := st.labelMap.map Prod.fst

/-- The loop invariant of the first loop after the labels `p` have been
read: the map holds exactly the values of `p`, each with its insertion rank
plus one; `curLabel` is the number of keys; `labels[j]` is the insertion
rank of `p[j]`. -/
structure Inv (p : List κ) (n : Nat) (st : OneHotState κ) : Prop where
  nodup : (keys st).Nodup
  mem : ∀ x, x ∈ keys st ↔ x ∈ p
  val : ∀ x ∈ keys st, st.labelMap.lookup x = some ((keys st).indexOf x + 1)
  cur : st.curLabel = (keys st).length
  len : st.labels.length = n
  lab : ∀ (j : Nat) (x : κ), p[j]? = some x → st.labels[j]? = some ((keys st).indexOf x)

/-- Proof device: the body of the first loop at position `i` for a label
that has been converted to the key type already (`mapStep_eq`). -/
def keyStep (x : κ) (i : Nat) (st : OneHotState κ) : OneHotState κ :=
  if st.labelMap.count x ≠ 0 then
    { st with labels := st.labels.set i (sizeSub (st.labelMap.get x) 1) }
  else
    { labelMap := st.labelMap.assign x (st.curLabel + 1)
      labels := st.labels.set i st.curLabel
      curLabel := st.curLabel + 1 }

/-- Proof device: the first loop over labels that have been converted to
the key type already (`mapLoop_eq`). -/
def keyLoop : List κ → Nat → OneHotState κ → OneHotState κ
  | [], _, st => st
  | x :: rest, i, st => keyLoop rest (i + 1) (keyStep x i st)

/-- Proof device: the whole function on labels that have been converted to
the key type already (`OneHotEncoding_eq`). -/
def onKeys (labelsIn : List κ) (output : Mat) : Option Mat :=
  let st := keyLoop labelsIn 0 (initState labelsIn.length)
  let output := output.zeros labelsIn.length st.curLabel
  fillLoop st.labels labelsIn.length 0 output

end OneHotEncoding

/-- The function `OneHotEncoding(labelsIn, output)`: the new value of
`output`, or `none` when an element access is out of bounds.  The labels
have the element type of `RowType`; `conv` is their implicit conversion to
`OutputType::elem_type`, the key type of `labelMap`, whose keys are compared
by their value (a floating-point key type is taken without NaN). -/
def OneHotEncoding {α κ : Type} [DecidableEq κ] (conv : α → κ) (labelsIn : List α)
    (output : Mat) : Option Mat :=
  let st := OneHotEncoding.mapLoop conv labelsIn 0 (OneHotEncoding.initState labelsIn.length)
  let output := output.zeros labelsIn.length st.curLabel
  OneHotEncoding.fillLoop st.labels labelsIn.length 0 output

/-- The bytes of an ASCII string literal. -/
def bytes (s : String) : List Byte := s.toList.map fun c => Fin.ofNat c.toNat

/-- The pieces of `s` cut at every byte of `D`, the empty pieces dropped:
the maximal non-empty runs of bytes outside `D`. -/
def splitRuns (D : List Byte) (s : List Byte) : List (List Byte) :=
  (s.splitOnP fun b => decide (b ∈ D)).filter fun piece => !piece.isEmpty

/-! ## First-seen order -/

section FirstSeen

variable {τ : Type} [DecidableEq τ]

/-- A list of distinct values extended by `x` unless it holds `x` already. -/
def insertNew (acc : List τ) (x : τ) : List τ := if x ∈ acc then acc else acc ++ [x]

/-- The distinct values of `l`, each at the place of its first occurrence. -/
def firstSeen (l : List τ) : List τ := l.foldl insertNew []

/-- The number of distinct values that occur in `l` strictly before the
first occurrence of `x`. -/
def distinctBefore (l : List τ) (x : τ) : Nat := ((l.take (l.indexOf x)).dedup).length

/-- The list `K` holds the distinct values of `l` in first-seen order: it
has no repetition, it has the values of `l` and no others, and the position
of a value in `K` is the number of distinct values met in `l` before it. -/
def FirstSeenOrder (K l : List τ) : Prop :=
  K.Nodup ∧ (∀ x, x ∈ K ↔ x ∈ l) ∧ ∀ x ∈ l, K.indexOf x = distinctBefore l x

end FirstSeen

/-! ## One-hot encoding of the rows named by `indices` -/

/-- What ends a call before its last statement. -/
inductive Fault where
  /-- The access `indices(position)` with `position >= indices.n_elem`. -/
  | indices (position : Nat)
  /-- A matrix element access `m(row, col)` outside the matrix. -/
  | element
  /-- A refusal of `shed_row` or `insert_rows`. -/
  | library
  deriving DecidableEq

namespace Mat

/-- Reading `input(row, col)` through the checked element access. -/
def get (input : Mat) (row col : Nat) : Except Fault Nat :=
  if row < input.n_rows ∧ col < input.n_cols then .ok (input.entry row col)
  else .error .element

end Mat

namespace OneHotEncodingIndices

/-- Reading `indices(row)` through the checked element access. -/
def indicesAt (indices : List Nat) (row : Nat) : Except Fault Nat :=
  match indices[row]? with
  | some r => .ok r
  | none => .error (.indices row)

/-- The loop `for (i = 0; i < input.n_cols; ++i)` of the body, from position
`i` on, over the map, `curLabel` and `labels`. -/
def labelLoop (input : Mat) (indices : List Nat) (row : Nat) :
    Nat → Nat → LabelMap Nat × Nat × List Nat → Except Fault (LabelMap Nat × Nat × List Nat)
  | 0, _, st => .ok st
  | count + 1, i, (labelMap, curLabel, labels) =>
    (indicesAt indices row).bind fun r =>
    (input.get r i).bind fun x =>
      if labelMap.count x ≠ 0 then
        labelLoop input indices row count (i + 1)
          (labelMap, curLabel, labels.set i (sizeSub (labelMap.get x) 1))
      else
        labelLoop input indices row count (i + 1)
          (labelMap.assign x (curLabel + 1), curLabel + 1, labels.set i curLabel)

/-- The loop `for (i = 0; i < labels.n_elem; ++i) output(labels[i], i) = 1`
of the body, from position `i` on. -/
def fillLoop (labels : List Nat) : Nat → Nat → Mat → Except Fault Mat
  | 0, _, output => .ok output
  | count + 1, i, output =>
    match output.put (labels.getD i 0) i 1 with
    | some output => fillLoop labels count (i + 1) output
    | none => .error .element

/-- The body of the outer loop for the current value of `row`.  The
armadillo members `shed_row` and `insert_rows` are parameters. -/
def body (shed_row : Mat → Nat → Except Fault Mat)
    (insert_rows : Mat → Nat → Mat → Except Fault Mat)
    (input : Mat) (indices : List Nat) (row : Nat) (labels : List Nat) (output : Mat) :
    Except Fault (List Nat × Mat) :=
  (labelLoop input indices row input.n_cols 0 ([], 0, labels)).bind fun st =>
    let curLabel := st.2.1
    let labels := st.2.2
    let tempOutput := Mat.zeros ⟨0, 0, []⟩ curLabel labels.length
    (fillLoop labels labels.length 0 output).bind fun output =>
    (indicesAt indices row).bind fun r =>
    (shed_row output r).bind fun output =>
    (indicesAt indices row).bind fun r =>
    (insert_rows output r tempOutput).bind fun output =>
      .ok (labels, output)

/-- The outer loop `for (size_t row = 0; row = indices.n_elem; row++)`, one
evaluation of its condition per unit of fuel.  The condition assigns
`indices.n_elem` to `row` and is true when that value is not zero. -/
def outerLoop (shed_row : Mat → Nat → Except Fault Mat)
    (insert_rows : Mat → Nat → Mat → Except Fault Mat)
    (input : Mat) (indices : List Nat) :
    Nat → Nat → List Nat → Mat → Option (Except Fault Mat)
  | 0, _, _, _ => none
  | fuel + 1, _, labels, output =>
    let row := indices.length
    if row ≠ 0 then
      match body shed_row insert_rows input indices row labels output with
      | .error fault => some (.error fault)
      | .ok (labels, output) =>
        outerLoop shed_row insert_rows input indices fuel (row + 1) labels output
    else some (.ok output)

end OneHotEncodingIndices

/-- The function `OneHotEncoding(input, indices, output)`: the new value of
`output`, or the fault that ends the call; `none` when the fuel runs out. -/
def OneHotEncodingIndices (shed_row : Mat → Nat → Except Fault Mat)
    (insert_rows : Mat → Nat → Mat → Except Fault Mat)
    (fuel : Nat) (input : Mat) (indices : List Nat) (_output : Mat) :
    Option (Except Fault Mat) :=
  let labels := List.replicate input.n_cols 0
  let output := input
  OneHotEncodingIndices.outerLoop shed_row insert_rows input indices fuel 0 labels output

/-! ## The sine activation function -/

namespace ann.SinFunction

/-- The scalar `Fn(x)`: `return std::sin(x)`.  The number type and the
library sine are parameters. -/
def Fn {α : Type} (sin : α → α) (x : α) : α := sin x

/-- The scalar `Deriv(y)`: `return std::cos(y)`.  The number type and the
library cosine are parameters. -/
def Deriv {α : Type} (cos : α → α) (y : α) : α := cos y

end ann.SinFunction

/-! ## The vocabulary of `word2vec` -/

/-- A tokenizer as a callable object: a call on the view returns the token
and the view that remains (`none`: the call does not return). -/
abbrev Tokenizer := List Byte → Option (List Byte × List Byte)

/-- The tokens a tokenizer returns on a view until the first empty token,
one call per unit of fuel. -/
def tokenSequence (tokenizer : Tokenizer) : Nat → List Byte → Option (List (List Byte))
  | 0, _ => none
  | fuel + 1, strView =>
    match tokenizer strView with
    | none => none
    | some (token, strView) =>
      if token.isEmpty then some []
      else (tokenSequence tokenizer fuel strView).map (token :: ·)

/-- The assignment `map[key] = value` on a `std::unordered_map` with any
value type: the entry of a present key is overwritten, an absent key gets a
new entry. -/
def assocAssign {α β : Type} [DecidableEq α] (m : List (α × β)) (key : α) (value : β) :
    List (α × β) :=
  if (m.lookup key).isSome then m.map fun e => if e.1 = key then (key, value) else e
  else m ++ [(key, value)]

/-- The lookup `map.find(key)` on a `std::unordered_map`: the stored value,
`none` for `map.end()`. -/
def assocFind {α β : Type} [DecidableEq α] (m : List (α × β)) (key : α) : Option β :=
  m.lookup key

/-- Reading `map[key]` as `Create` does: `operator[]` gives a missing key an
entry with the value 0. -/
def LabelMap.touch {κ : Type} [DecidableEq κ] (m : LabelMap κ) (key : κ) : LabelMap κ :=
  if (m.lookup key).isSome then m else m ++ [(key, 0)]

/-- The members of a `word2vec` object that `Fit` writes, and `windowSize`.
The matrices `x` and `y` and the training parameters are left out. -/
structure word2vec where
  mapping : LabelMap (List Byte)
  reverseMapping : List (Nat × List Byte)
  tokens : List (List Byte)
  tokenizedcorpus : List (List Byte)
  windowSize : Nat
  deriving DecidableEq

namespace word2vec

/-- A fresh object: the containers are empty. -/
def new (windowSize : Nat) : word2vec := ⟨[], [], [], [], windowSize⟩

/-- The body of the loop of `Fit` for one non-empty token. -/
def record (token : List Byte) (st : word2vec) : word2vec :=
  let st := { st with tokenizedcorpus := st.tokenizedcorpus.concat token }
  if (assocFind st.mapping token).isNone then
    let tokens := st.tokens.concat token
    { st with
      tokens := tokens
      mapping := st.mapping.assign (tokens.getLastD []) (sizeSub tokens.length 1)
      reverseMapping :=
        assocAssign st.reverseMapping (sizeSub tokens.length 1) (tokens.getLastD []) }
  else st

/-- The loop of `Fit`, `token = tokenizer(strView); while (!token.empty())
{ ...; token = tokenizer(strView); }`, one tokenizer call per unit of fuel. -/
def fitLoop (tokenizer : Tokenizer) : Nat → List Byte → word2vec → Option word2vec
  | 0, _, _ => none
  | fuel + 1, strView, st =>
    match tokenizer strView with
    | none => none
    | some (token, strView) =>
      if token.isEmpty then some st
      else fitLoop tokenizer fuel strView (record token st)

/-- The keys that `Create` looks up in `mapping`, in the order of the
accesses: for every position `i` of the corpus `tokenizedcorpus[i]`, then for
`j = 1 .. windowSize` the neighbours `tokenizedcorpus[i - j]` when
`i - j > 0` (in `int`) and `tokenizedcorpus[i + j]` when
`i + j < tokenizedcorpus.size()`. -/
def createKeys (tokenizedcorpus : List (List Byte)) (windowSize : Nat) : List (List Byte) :=
  (List.range tokenizedcorpus.length).flatMap fun i =>
    tokenizedcorpus[i]?.toList ++
      (List.range' 1 windowSize).flatMap fun j =>
        (if (i : Int) - (j : Int) > 0 then tokenizedcorpus[i - j]?.toList else []) ++
        (if i + j < tokenizedcorpus.length then tokenizedcorpus[i + j]?.toList else [])

/-- The effect of `Create()` on the members kept here: it fills `x` and `y`
(left out) and reaches `mapping` through `operator[]` at the keys above. -/
def Create (st : word2vec) : word2vec :=
  { st with mapping := (createKeys st.tokenizedcorpus st.windowSize).foldl LabelMap.touch st.mapping }

/-- The method `Fit(corpus, tokenizer)`: the loop over the tokens of the
corpus, then `Create()`. -/
def Fit (tokenizer : Tokenizer) (fuel : Nat) (corpus : List Byte) (st : word2vec) :
    Option word2vec :=
  (fitLoop tokenizer fuel corpus st).map Create

/-- The invariant of the loop of `Fit`: `tokens` is the first-seen list of
the corpus read so far, `mapping` pairs `tokens[k]` with `k` and
`reverseMapping` pairs `k` with `tokens[k]`. -/
structure Inv (st : word2vec) : Prop where
  tokens_eq : st.tokens = firstSeen st.tokenizedcorpus
  map_keys : st.mapping.map Prod.fst = st.tokens
  map_ids : st.mapping.map Prod.snd = List.range st.tokens.length
  rev_keys : st.reverseMapping.map Prod.fst = List.range st.tokens.length
  rev_tokens : st.reverseMapping.map Prod.snd = st.tokens

end word2vec

/-! ## The string encoders -/

/-- The tokens of a string: the tokenizer called on a view of the string
until it returns the empty token, with one call per byte and one more (the
tokenizers here need no more; `[]` stands for a tokenizer that needs
more). -/
def tokensOf (tokenizer : Tokenizer) (s : List Byte) : List (List Byte) :=
  (tokenSequence tokenizer (s.length + 1) s).getD []

/-- Modelled from the spec: the character tokenizer of section 4.1, which
"returns one character at a time" and an empty token on an empty view (the
class `CharExtract` is not among the sources). -/
def CharExtract.call : Tokenizer
  | [] => some ([], [])
  | c :: rest => some ([c], rest)

/-- Modelled from the spec: the dictionary of section 4.2 (the class
`StringEncodingDictionary` is not among the sources): the mapping from the
token text to its id, in the order of insertion, and the id that the next
new token gets. -/
structure StringEncodingDictionary (τ : Type) where
  mapping : List (τ × Nat)
  next_id : Nat

namespace StringEncodingDictionary

variable {τ : Type} [DecidableEq τ]

/-- Modelled from the spec: the empty dictionary of section 3, whose ids
start "at 0 (or 1 depending on policy)". -/
def new (first_id : Nat) : StringEncodingDictionary τ := ⟨[], first_id⟩

/-- Modelled from the spec: the lookup `Find(token) -> optional id` of
section 4.2. -/
def Find (d : StringEncodingDictionary τ) (token : τ) : Option Nat := assocFind d.mapping token

/-- Modelled from the spec: the insertion `Insert(token) -> id` of section
4.2, which "returns existing id if token already present, else assigns
next_id (post-increment)". -/
def Insert (d : StringEncodingDictionary τ) (token : τ) : Nat × StringEncodingDictionary τ :=
  match d.Find token with
  | some id => (id, d)
  | none => (d.next_id, ⟨d.mapping ++ [(token, d.next_id)], d.next_id + 1⟩)

/-- Modelled from the spec: the number of tokens of the dictionary, the
"vocabulary size" of section 4.3. -/
def Size (d : StringEncodingDictionary τ) : Nat := d.mapping.length

/-- The tokens of the dictionary in the order of their insertion. -/
def keys (d : StringEncodingDictionary τ) : List τ := d.mapping.map Prod.fst

/-- The invariant of a dictionary whose ids start at `first`: the tokens are
distinct, a token at position `i` has the id `first + i`, and the next id
is `first` plus the number of tokens. -/
structure Inv (first : Nat) (d : StringEncodingDictionary τ) : Prop where
  nodup : (keys d).Nodup
  val : ∀ x ∈ keys d, d.mapping.lookup x = some (first + (keys d).indexOf x)
  next : d.next_id = first + (keys d).length

end StringEncodingDictionary

namespace StringEncoding

variable {τ : Type} [DecidableEq τ]

/-- Modelled from the spec: the orchestrator of section 4.4 on the tokens of
one input string, "for each non-empty token, insert/lookup its id in the
dictionary"; the result is the encoded row of section 3, the "ordered
sequence of ids corresponding to the tokens of one input string, in
original order", and the grown dictionary. -/
def encodeTokens : List τ → StringEncodingDictionary τ → List Nat × StringEncodingDictionary τ
  | [], d => ([], d)
  | token :: rest, d =>
    let r := d.Insert token
    let rs := encodeTokens rest r.2
    (r.1 :: rs.1, rs.2)

/-- Modelled from the spec: the orchestrator of section 4.4 over the input
strings "(in order)", each given by its tokens. -/
def encodeStrings :
    List (List τ) → StringEncodingDictionary τ → List (List Nat) × StringEncodingDictionary τ
  | [], d => ([], d)
  | tokens :: rest, d =>
    let r := encodeTokens tokens d
    let rs := encodeStrings rest r.2
    (r.1 :: rs.1, rs.2)

end StringEncoding

/-- The number of times the token `t` occurs among the tokens `ts`. -/
def occurrences {τ : Type} [DecidableEq τ] (t : τ) (ts : List τ) : Nat := ts.count t

namespace BagOfWordsEncodingPolicy

/-- Modelled from the spec: the pre-sizing of the padded policy of section
4.3 for bag of words, "rows = number of inputs, columns = vocabulary size",
zero-filled (the policy class is not among the sources). -/
def InitMatrix (output : Mat) (datasetSize _colSize mappingsSize : Nat) : Mat :=
  output.zeros datasetSize mappingsSize

/-- Modelled from the spec: the placement routine of section 4.3 for bag of
words (the policy class is not among the sources), which "writes each
token's count" at `(row, columnDerivedFromId)`, the column being the id: the
entry counts one more occurrence of the token, so that "each row records
token occurrence counts indexed by vocabulary id" (glossary).  An index
outside the matrix is "a reported bounds error" (section 7), `none`. -/
def Encode (elem : Nat) (output : Mat) (row _col : Nat) : Option Mat :=
  output.put row elem (output.entry row elem + 1)

/-- Modelled from the spec: the placement routine on one row of the
vector-of-vectors output, the "ordered collection of variable-length integer
sequences, one per input, no padding" of section 3, to which the routine
"appends each encoded id" (section 4.3). -/
def EncodeVector (output : List Nat) (elem : Nat) : List Nat := output ++ [elem]

/-- Modelled from the spec: the placement routine called for the ids of one
row, in order. -/
def encodeRowFrom (row : Nat) : List Nat → Nat → Mat → Option Mat
  | [], _, output => some output
  | id :: ids, col, output => (Encode id output row col).bind (encodeRowFrom row ids (col + 1))

/-- Modelled from the spec: the placement routine called row after row, the
rows numbered from `row` on. -/
def encodeRowsFrom : List (List Nat) → Nat → Mat → Option Mat
  | [], _, output => some output
  | ids :: rest, row, output =>
    (encodeRowFrom row ids 0 output).bind (encodeRowsFrom rest (row + 1))

end BagOfWordsEncodingPolicy

namespace BowEncoding

variable {σ τ : Type} [DecidableEq τ]

/-- Modelled from the spec: the dictionary of a fresh bag-of-words encoder
after encoding `input`; its ids start at 0 (section 8: the dictionary
`{G,A,C}` gives the ids 0, 1, 2). -/
def Dictionary (input : List σ) (tokenize : σ → List τ) : StringEncodingDictionary τ :=
  (StringEncoding.encodeStrings (input.map tokenize) (StringEncodingDictionary.new 0)).2

/-- Modelled from the spec: `Encode(input, output, tokenizer)` of a fresh
bag-of-words encoder with a dense matrix as output (section 4.4): a first
pass builds the dictionary and the rows of ids, then the output is sized
and the policy places every id. -/
def Encode (input : List σ) (tokenize : σ → List τ) (output : Mat) : Option Mat :=
  let r := StringEncoding.encodeStrings (input.map tokenize) (StringEncodingDictionary.new 0)
  BagOfWordsEncodingPolicy.encodeRowsFrom r.1 0
    (BagOfWordsEncodingPolicy.InitMatrix output input.length
      (DictionaryEncoding.maxRowLength r.1) r.2.Size)

/-- Modelled from the spec: `Encode(input, output, tokenizer)` of a fresh
bag-of-words encoder with a vector of vectors as output: every row starts
empty and receives the ids of its string one by one. -/
def EncodeVectors (input : List σ) (tokenize : σ → List τ) : List (List Nat) :=
  let r := StringEncoding.encodeStrings (input.map tokenize) (StringEncodingDictionary.new 0)
  r.1.map fun ids => ids.foldl BagOfWordsEncodingPolicy.EncodeVector []

end BowEncoding

namespace DictionaryEncoding

variable {σ τ : Type} [DecidableEq τ]

/-- Modelled from the spec: the mappings of a fresh `DictionaryEncoding`
after encoding `input` (the implementation file of the class is not among
the sources); the ids start at 1, 0 being "reserved for padding". -/
def Mappings (input : List σ) (tokenize : σ → List τ) : StringEncodingDictionary τ :=
  (StringEncoding.encodeStrings (input.map tokenize) (StringEncodingDictionary.new 1)).2

/-- Modelled from the spec: the member `Encode(input, output, tokenizer)`
with a matrix as output: the rows of ids are built, then written by the
policy into a matrix as wide as the longest row, which "paddes 0 to maintain
same sizes across all the rows". -/
def EncodeStrings (input : List σ) (tokenize : σ → List τ) (output : Mat) : Option Mat :=
  let r := StringEncoding.encodeStrings (input.map tokenize) (StringEncodingDictionary.new 1)
  encodeDense r.1 output input.length (maxRowLength r.1) r.2.Size

/-- Modelled from the spec: the member `Encode(input, output, tokenizer)`
with a vector of vectors as output, without padding. -/
def EncodeStringsNoPadding (input : List σ) (tokenize : σ → List τ) : List (List Nat) :=
  let r := StringEncoding.encodeStrings (input.map tokenize) (StringEncodingDictionary.new 1)
  r.1.map encodeVector

end DictionaryEncoding

namespace StringEncodingTest

/-- The input of `BowEncodingIndividualCharactersTest`. -/
def input : List (List Byte) := [bytes "GACCA", bytes "ABCABCD", bytes "GAB"]

end StringEncodingTest

/-- The rows of a matrix, from row `0` to row `n_rows - 1`. -/
def Mat.rows (m : Mat) : List (List Nat) := (List.range m.n_rows).map m.row

/-! ## Lemmas on the tokenizer -/

theorem toUChar_charValue (b : Byte) : toUChar (charValue b) = b.val := by
  have hb := b.isLt
  unfold toUChar charValue CHAR_BIT
  split <;> omega

theorem toUChar_lt (c : Int) : toUChar c < 1 <<< CHAR_BIT := by
  have : (1 <<< CHAR_BIT : Nat) = 256 := by decide
  unfold toUChar CHAR_BIT
  omega

namespace SplitByAnyOf

theorem mask_fold (D : List Byte) (m : List Bool) (i : Nat) (hi : i < m.length) :
    (D.foldl (fun mask symbol => mask.set (toUChar (charValue symbol)) true) m).getD i false
      = (m.getD i false || D.any fun d => d.val == i) := by
  induction D generalizing m with
  | nil => simp
  | cons d D ih =>
    rw [List.foldl_cons, ih _ (by simpa using hi)]
    simp only [List.getD_eq_getElem?_getD, List.getElem?_set, toUChar_charValue, List.any_cons]
    by_cases h : d.val = i
    · subst h
      simp [hi]
    · have hb : (d.val == i) = false := by simpa using h
      simp [h, hb]

theorem isDelimiter_new (D : List Byte) (c : Byte) :
    (new D).isDelimiter c = decide (c ∈ D) := by
  unfold isDelimiter new
  rw [mask_fold _ _ _ (by rw [List.length_replicate]; exact toUChar_lt _)]
  have h0 : (List.replicate (1 <<< CHAR_BIT) false).getD (toUChar (charValue c)) false = false := by
    simp only [List.getD_eq_getElem?_getD, List.getElem?_replicate]
    split <;> rfl
  rw [h0, toUChar_charValue]
  by_cases h : c ∈ D
  · simp only [Bool.false_or, h, decide_True, List.any_eq_true]
    exact ⟨c, h, by simp⟩
  · simp only [Bool.false_or, h, decide_False, List.any_eq_false]
    intro d hd hdc
    exact h (by
      have : d = c := Fin.ext (by simpa using hdc)
      exact this ▸ hd)

theorem FindFirstDelimiter_nil (t : SplitByAnyOf) : t.FindFirstDelimiter [] = none := rfl

theorem FindFirstDelimiter_cons (t : SplitByAnyOf) (c : Byte) (cs : List Byte) :
    t.FindFirstDelimiter (c :: cs)
      = if t.isDelimiter c then some 0 else (t.FindFirstDelimiter cs).map (· + 1) := by
  unfold FindFirstDelimiter
  rw [List.length_cons, List.range_succ_eq_map, List.find?_cons]
  by_cases h : t.isDelimiter c
  · simp [h]
  · have hfun : ((fun pos => match (c :: cs)[pos]? with
        | some c => t.isDelimiter c
        | none => false) ∘ Nat.succ)
        = fun pos => match cs[pos]? with
          | some c => t.isDelimiter c
          | none => false := by
      funext pos
      simp [Function.comp]
    have hsucc : Nat.succ = fun x => x + 1 := rfl
    simp only [List.getElem?_cons_zero, h, List.find?_map, hfun, hsucc]
    simp

/-- Closed form of `FindFirstDelimiter`: the length of the longest
delimiter-free prefix, when a byte follows it. -/
theorem FindFirstDelimiter_eq (t : SplitByAnyOf) (str : List Byte) :
    t.FindFirstDelimiter str
      = if str.dropWhile (fun c => !t.isDelimiter c) = [] then none
        else some (str.takeWhile fun c => !t.isDelimiter c).length := by
  induction str with
  | nil => rfl
  | cons c cs ih =>
    rw [FindFirstDelimiter_cons, ih]
    by_cases h : t.isDelimiter c
    · simp [h, List.dropWhile_cons, List.takeWhile_cons]
    · by_cases hd : cs.dropWhile (fun c => !t.isDelimiter c) = []
      · simp [h, hd, List.dropWhile_cons, List.takeWhile_cons]
      · simp [h, hd, List.dropWhile_cons, List.takeWhile_cons]

theorem take_takeWhile_length (p : Byte → Bool) (l : List Byte) :
    l.take (l.takeWhile p).length = l.takeWhile p := by
  have h := List.take_left (l.takeWhile p) (l.dropWhile p)
  rwa [List.takeWhile_append_dropWhile] at h

theorem drop_takeWhile_length (p : Byte → Bool) (l : List Byte) :
    l.drop (l.takeWhile p).length = l.dropWhile p := by
  have h := List.drop_left (l.takeWhile p) (l.dropWhile p)
  rwa [List.takeWhile_append_dropWhile] at h

theorem loop_eq (t : SplitByAnyOf) (str : List Byte) :
    ∀ fuel, str.length < fuel → t.loop fuel str = some (t.nextToken str) := by
  induction str with
  | nil =>
    intro fuel h
    obtain ⟨f, rfl⟩ : ∃ f, fuel = f + 1 := ⟨fuel - 1, by omega⟩
    rfl
  | cons c cs ih =>
    intro fuel h
    obtain ⟨f, rfl⟩ : ∃ f, fuel = f + 1 := ⟨fuel - 1, by omega⟩
    have hf : cs.length < f := by simpa using h
    by_cases hc : t.isDelimiter c
    · simp [loop, nextToken, FindFirstDelimiter_cons, hc, ih f hf]
    · rw [loop, FindFirstDelimiter_cons, FindFirstDelimiter_eq]
      by_cases hd : cs.dropWhile (fun c => !t.isDelimiter c) = []
      · have htw : cs.takeWhile (fun c => !t.isDelimiter c) = cs := by
          rw [List.takeWhile_eq_self_iff]
          exact List.dropWhile_eq_nil_iff.mp hd
        simp [nextToken, hc, hd, htw]
      · have hdrop : (c :: cs).drop ((cs.takeWhile fun c => !t.isDelimiter c).length + 1 + 1)
            = (cs.dropWhile fun c => !t.isDelimiter c).tail := by
          rw [List.drop_succ_cons, ← List.tail_drop, drop_takeWhile_length]
        simp only [hc, hd, if_false, Option.map_some', List.take_succ_cons,
          take_takeWhile_length, hdrop, nextToken, List.isEmpty_cons, Bool.false_eq_true]

theorem call_eq (t : SplitByAnyOf) (str : List Byte) :
    t.call str = some (t.nextToken str) :=
  loop_eq t str _ (Nat.lt_succ_self _)

theorem dropWhile_head_isDelimiter (t : SplitByAnyOf) (cs : List Byte) (d : Byte)
    (as : List Byte) (h : cs.dropWhile (fun c => !t.isDelimiter c) = d :: as) :
    t.isDelimiter d = true := by
  have hne : cs.dropWhile (fun c => !t.isDelimiter c) ≠ [] := by rw [h]; simp
  have := List.head_dropWhile_not (fun c => !t.isDelimiter c) cs hne
  simpa [h] using this

theorem takeWhile_not_isDelimiter (t : SplitByAnyOf) (cs : List Byte) :
    ∀ x ∈ cs.takeWhile (fun c => !t.isDelimiter c), ¬ t.isDelimiter x = true := by
  intro x hx
  simpa using List.mem_takeWhile_imp hx

theorem runs_step (t : SplitByAnyOf) (s : List Byte) :
    t.runs s = if (t.nextToken s).1 = [] then []
               else (t.nextToken s).1 :: t.runs (t.nextToken s).2 := by
  induction s with
  | nil => simp [runs, nextToken]
  | cons c cs ih =>
    by_cases hc : t.isDelimiter c
    · have h1 : t.runs (c :: cs) = t.runs cs := by
        simp [runs, List.splitOnP_cons, hc]
      rw [h1, ih]
      simp [nextToken, hc]
    · have hsplit := List.takeWhile_append_dropWhile (fun c => !t.isDelimiter c) cs
      simp only [nextToken, hc, if_false, reduceCtorEq, Bool.false_eq_true]
      cases hdw : cs.dropWhile (fun c => !t.isDelimiter c) with
      | nil =>
        have htw : cs.takeWhile (fun c => !t.isDelimiter c) = cs := by
          rw [List.takeWhile_eq_self_iff]
          exact List.dropWhile_eq_nil_iff.mp hdw
        have hall : ∀ x ∈ c :: cs, ¬ t.isDelimiter x = true := by
          intro x hx
          rcases List.mem_cons.mp hx with rfl | hx
          · exact hc
          · have := List.dropWhile_eq_nil_iff.mp hdw x hx
            simpa using this
        have h1 : t.runs (c :: cs) = [c :: cs] := by
          unfold runs
          rw [List.splitOnP_eq_single t.isDelimiter _ hall]
          simp
        rw [h1, htw]
        simp [runs]
      | cons d as =>
        have hd := dropWhile_head_isDelimiter t cs d as hdw
        have hall : ∀ x ∈ c :: cs.takeWhile (fun c => !t.isDelimiter c),
            ¬ t.isDelimiter x = true := by
          intro x hx
          rcases List.mem_cons.mp hx with rfl | hx
          · exact hc
          · exact takeWhile_not_isDelimiter t cs x hx
        have hcs : c :: cs = (c :: cs.takeWhile (fun c => !t.isDelimiter c)) ++ d :: as := by
          rw [List.cons_append, ← hdw, hsplit]
        have h1 : t.runs (c :: cs)
            = (c :: cs.takeWhile (fun c => !t.isDelimiter c)) :: t.runs as := by
          unfold runs
          rw [hcs, List.splitOnP_first t.isDelimiter _ hall d hd]
          simp
        rw [h1]
        simp

theorem nextToken_length_le (t : SplitByAnyOf) (s : List Byte) :
    (t.nextToken s).2.length ≤ s.length := by
  induction s with
  | nil => simp [nextToken]
  | cons c cs ih =>
    by_cases hc : t.isDelimiter c
    · simp only [nextToken, hc, if_true, List.length_cons]
      omega
    · have := (List.dropWhile_sublist (l := cs) fun c => !t.isDelimiter c).length_le
      simp only [nextToken, hc, if_false, List.length_cons, List.length_tail,
        Bool.false_eq_true]
      omega

theorem nextToken_length_lt (t : SplitByAnyOf) (s : List Byte) (h : (t.nextToken s).1 ≠ []) :
    (t.nextToken s).2.length < s.length := by
  induction s with
  | nil => simp [nextToken] at h
  | cons c cs ih =>
    by_cases hc : t.isDelimiter c
    · simp only [nextToken, hc, if_true] at h ⊢
      have := ih h
      simp only [List.length_cons]
      omega
    · have := (List.dropWhile_sublist (l := cs) fun c => !t.isDelimiter c).length_le
      simp only [nextToken, hc, if_false, List.length_cons, List.length_tail,
        Bool.false_eq_true]
      omega

theorem drainLoop_eq (t : SplitByAnyOf) :
    ∀ fuel s, s.length < fuel → t.drainLoop fuel s = some (t.runs s) := by
  intro fuel
  induction fuel with
  | zero => intro s h; omega
  | succ f ih =>
    intro s h
    rw [drainLoop, call_eq, runs_step]
    by_cases he : (t.nextToken s).1 = []
    · simp [IsTokenEmpty, he]
    · have hlt := nextToken_length_lt t s he
      simp [IsTokenEmpty, he, ih _ (by omega : (t.nextToken s).2.length < f)]

theorem runs_new (D s : List Byte) : (new D).runs s = splitRuns D s := by
  unfold runs splitRuns
  have : (new D).isDelimiter = fun b => decide (b ∈ D) := funext (isDelimiter_new D)
  rw [this]

theorem drain_new (D s : List Byte) : (new D).drain s = some (splitRuns D s) := by
  rw [drain, drainLoop_eq _ _ _ (Nat.lt_succ_self _), runs_new]

theorem nextToken_fst_eq_nil_iff (t : SplitByAnyOf) (s : List Byte) :
    (t.nextToken s).1 = [] ↔ ∀ b ∈ s, t.isDelimiter b = true := by
  induction s with
  | nil => simp [nextToken]
  | cons c cs ih =>
    by_cases hc : t.isDelimiter c
    · simp [nextToken, hc, ih]
    · simp [nextToken, hc]

theorem nextToken_snd_of_fst_nil (t : SplitByAnyOf) (s : List Byte)
    (h : (t.nextToken s).1 = []) : (t.nextToken s).2 = [] := by
  induction s with
  | nil => simp [nextToken]
  | cons c cs ih =>
    by_cases hc : t.isDelimiter c
    · simp only [nextToken, hc, if_true] at h ⊢
      exact ih h
    · simp [nextToken, hc] at h

theorem nextToken_decomp (t : SplitByAnyOf) (s : List Byte) :
    ∃ p, (∀ b ∈ p, t.isDelimiter b = true) ∧ (∀ b ∈ (t.nextToken s).1, ¬ t.isDelimiter b = true) ∧
      ((∃ d, t.isDelimiter d = true ∧ (t.nextToken s).1 ≠ [] ∧
          s = p ++ (t.nextToken s).1 ++ [d] ++ (t.nextToken s).2) ∨
       ((t.nextToken s).2 = [] ∧ s = p ++ (t.nextToken s).1)) := by
  induction s with
  | nil => exact ⟨[], by simp, by simp [nextToken], Or.inr (by simp [nextToken])⟩
  | cons c cs ih =>
    by_cases hc : t.isDelimiter c
    · obtain ⟨p, hp, htok, hcase⟩ := ih
      refine ⟨c :: p, ?_, by simpa [nextToken, hc] using htok, ?_⟩
      · intro b hb
        rcases List.mem_cons.mp hb with rfl | hb
        · exact hc
        · exact hp b hb
      · rcases hcase with ⟨d, hd, hne, hs⟩ | ⟨hr, hs⟩
        · refine Or.inl ⟨d, hd, by simpa [nextToken, hc] using hne, ?_⟩
          simp only [nextToken, hc, if_true]
          rw [List.cons_append, List.cons_append, List.cons_append, ← hs]
        · refine Or.inr ⟨by simpa [nextToken, hc] using hr, ?_⟩
          simp only [nextToken, hc, if_true]
          rw [List.cons_append, ← hs]
    · have hsplit := List.takeWhile_append_dropWhile (fun c => !t.isDelimiter c) cs
      have hall : ∀ b ∈ c :: cs.takeWhile (fun c => !t.isDelimiter c),
          ¬ t.isDelimiter b = true := by
        intro x hx
        rcases List.mem_cons.mp hx with rfl | hx
        · exact hc
        · exact takeWhile_not_isDelimiter t cs x hx
      refine ⟨[], by simp, by simpa [nextToken, hc] using hall, ?_⟩
      cases hdw : cs.dropWhile (fun c => !t.isDelimiter c) with
      | nil =>
        refine Or.inr ?_
        rw [hdw, List.append_nil] at hsplit
        simp [nextToken, hc, hdw, hsplit]
      | cons d as =>
        refine Or.inl ⟨d, dropWhile_head_isDelimiter t cs d as hdw, by simp [nextToken, hc], ?_⟩
        rw [hdw] at hsplit
        simp [nextToken, hc, hdw, hsplit]

theorem splitOnP_skip (p : Byte → Bool) (d d' : Byte) (hd : p d = true) (hd' : p d' = true)
    (s1 s2 : List Byte) :
    ∃ h T T', (s1 ++ d :: d' :: s2).splitOnP p = h :: T ∧ (s1 ++ d :: s2).splitOnP p = h :: T' ∧
      T.filter (fun piece => !piece.isEmpty) = T'.filter (fun piece => !piece.isEmpty) := by
  induction s1 with
  | nil =>
    cases hs2 : s2.splitOnP p with
    | nil => exact absurd hs2 (List.splitOnP_ne_nil p s2)
    | cons a as =>
      exact ⟨[], [] :: a :: as, a :: as, by simp [List.splitOnP_cons, hd, hd', hs2],
        by simp [List.splitOnP_cons, hd, hs2], by simp⟩
  | cons c cs ih =>
    obtain ⟨h, T, T', h1, h2, h3⟩ := ih
    by_cases hc : p c = true
    · exact ⟨[], h :: T, h :: T', by simp [List.splitOnP_cons, hc, h1],
        by simp [List.splitOnP_cons, hc, h2], by simp [List.filter_cons, h3]⟩
    · exact ⟨c :: h, T, T', by simp [List.splitOnP_cons, hc, h1],
        by simp [List.splitOnP_cons, hc, h2], h3⟩

theorem splitRuns_skip (D : List Byte) (d d' : Byte) (hd : d ∈ D) (hd' : d' ∈ D)
    (s1 s2 : List Byte) :
    splitRuns D (s1 ++ d :: d' :: s2) = splitRuns D (s1 ++ d :: s2) := by
  obtain ⟨h, T, T', h1, h2, h3⟩ :=
    splitOnP_skip (fun b => decide (b ∈ D)) d d' (by simpa using hd) (by simpa using hd') s1 s2
  unfold splitRuns
  rw [h1, h2, List.filter_cons, List.filter_cons, h3]

end SplitByAnyOf

/-! ## Theorems on the tokenizer -/

/-- C1: draining `SplitByAnyOf(D)` over a view of `s` (calling it until it
returns an empty token) terminates and yields exactly `s` split at every
byte of `D` with the empty pieces dropped, in the original order. -/
theorem drain_eq_splitRuns (D s : List Byte) :
    (SplitByAnyOf.new D).drain s = some (splitRuns D s) :=
  SplitByAnyOf.drain_new D s

/-- C2: one call of `SplitByAnyOf(D)` on the view `s` returns, and its token
is empty if and only if every byte of `s` is a delimiter (vacuously so for
the empty view); in that case the view is empty after the call. -/
theorem call_token_empty_iff (D s : List Byte) :
    ∃ tok rest, (SplitByAnyOf.new D).call s = some (tok, rest) ∧
      (tok = [] ↔ ∀ b ∈ s, b ∈ D) ∧ (tok = [] → rest = []) := by
  refine ⟨_, _, SplitByAnyOf.call_eq _ s, ?_, SplitByAnyOf.nextToken_snd_of_fst_nil _ s⟩
  rw [SplitByAnyOf.nextToken_fst_eq_nil_iff]
  simp [SplitByAnyOf.isDelimiter_new]

/-- C3: one call of `SplitByAnyOf(D)` on the view `s` returns a token `t` and
leaves a view `r` such that either `s = p ++ t ++ [d] ++ r` with `p` made of
delimiters only, `d` a delimiter and `t` non-empty and free of delimiters,
or `s = p ++ t` with `r` empty, `p` made of delimiters only and `t` free of
delimiters; in both cases `r` is a suffix of `s` and `t` a contiguous slice
of `s`. -/
theorem call_decomposition (D s : List Byte) :
    ∃ t r, (SplitByAnyOf.new D).call s = some (t, r) ∧
      ((∃ p d, s = p ++ t ++ [d] ++ r ∧ (∀ b ∈ p, b ∈ D) ∧ d ∈ D ∧ t ≠ [] ∧ ∀ b ∈ t, b ∉ D) ∨
       (∃ p, s = p ++ t ∧ r = [] ∧ (∀ b ∈ p, b ∈ D) ∧ ∀ b ∈ t, b ∉ D)) ∧
      r <:+ s ∧ t <:+: s := by
  obtain ⟨p, hp, htok, hcase⟩ := SplitByAnyOf.nextToken_decomp (SplitByAnyOf.new D) s
  simp only [SplitByAnyOf.isDelimiter_new, decide_eq_true_eq] at hp htok hcase
  refine ⟨_, _, SplitByAnyOf.call_eq _ s, ?_, ?_, ?_⟩
  · rcases hcase with ⟨d, hd, hne, hs⟩ | ⟨hr, hs⟩
    · exact Or.inl ⟨p, d, hs, hp, hd, hne, htok⟩
    · exact Or.inr ⟨p, hs, hr, hp, htok⟩
  · rcases hcase with ⟨d, _, _, hs⟩ | ⟨hr, _⟩
    · exact ⟨_, hs.symm⟩
    · rw [hr]; exact List.nil_suffix
  · rcases hcase with ⟨d, _, _, hs⟩ | ⟨_, hs⟩
    · exact ⟨p, [d] ++ ((SplitByAnyOf.new D).nextToken s).2, by
        conv_rhs => rw [hs]
        simp⟩
    · exact ⟨p, [], by
        conv_rhs => rw [hs]
        simp⟩

/-- C4: on a view `s` that contains no byte of `D`, one call of
`SplitByAnyOf(D)` returns the whole of `s` as the token and leaves the view
empty. -/
theorem call_no_delimiter (D s : List Byte) (h : ∀ b ∈ s, b ∉ D) :
    (SplitByAnyOf.new D).call s = some (s, []) := by
  obtain ⟨p, hp, htok, hcase⟩ := SplitByAnyOf.nextToken_decomp (SplitByAnyOf.new D) s
  simp only [SplitByAnyOf.isDelimiter_new, decide_eq_true_eq] at hp htok hcase
  rw [SplitByAnyOf.call_eq]
  have hpnil : ∀ q : List Byte, q <+: s → (∀ b ∈ q, b ∈ D) → q = [] := by
    intro q hq hall
    cases q with
    | nil => rfl
    | cons a q =>
      exact absurd (hall a (List.mem_cons_self _ _))
        (h a (hq.subset (List.mem_cons_self _ _)))
  rcases hcase with ⟨d, hd, _, hs⟩ | ⟨hr, hs⟩
  · exact absurd hd (h d (by rw [hs]; simp))
  · have : p = [] := hpnil p ⟨_, hs.symm⟩ hp
    rw [this, List.nil_append] at hs
    exact congrArg some (Prod.ext hs.symm hr)

/-- Witness of C4 on the views "ab" (no comma), the empty view, and "a,b"
with no delimiter at all. -/
theorem call_no_delimiter_witness :
    (∀ b ∈ bytes "ab", b ∉ bytes ",") ∧
    (SplitByAnyOf.new (bytes ",")).call (bytes "ab") = some (bytes "ab", []) ∧
    (SplitByAnyOf.new (bytes ",")).call [] = some ([], []) ∧
    (SplitByAnyOf.new []).call (bytes "a,b") = some (bytes "a,b", []) :=
  ⟨by simp [bytes]; decide, call_no_delimiter _ _ (by simp [bytes]; decide),
    call_no_delimiter _ _ (by simp),
    call_no_delimiter _ _ (by simp)⟩

/-- C5: consecutive delimiters never produce empty tokens: draining over
`s1 ++ [d] ++ [d'] ++ s2` with `d`, `d'` delimiters returns the same token
sequence as draining over `s1 ++ [d] ++ s2`. -/
theorem drain_consecutive_delimiters (D : List Byte) (d d' : Byte) (s1 s2 : List Byte)
    (hd : d ∈ D) (hd' : d' ∈ D) :
    ∃ toks, (SplitByAnyOf.new D).drain (s1 ++ [d] ++ [d'] ++ s2) = some toks ∧
      (SplitByAnyOf.new D).drain (s1 ++ [d] ++ s2) = some toks := by
  refine ⟨splitRuns D (s1 ++ d :: s2), ?_, ?_⟩
  · rw [SplitByAnyOf.drain_new, ← SplitByAnyOf.splitRuns_skip D d d' hd hd' s1 s2]
    simp
  · rw [SplitByAnyOf.drain_new]
    simp

/-- Witness of C5: "a,,b" and "a,b" both give the tokens "a", "b" when split
at commas. -/
theorem drain_consecutive_delimiters_witness :
    (⟨44, by decide⟩ : Byte) ∈ bytes "," ∧
    (∃ toks, (SplitByAnyOf.new (bytes ",")).drain
        (bytes "a" ++ [⟨44, by decide⟩] ++ [⟨44, by decide⟩] ++ bytes "b") = some toks ∧
      (SplitByAnyOf.new (bytes ",")).drain (bytes "a" ++ [⟨44, by decide⟩] ++ bytes "b")
        = some toks) ∧
    (SplitByAnyOf.new (bytes ",")).drain (bytes "a,,b") = some [bytes "a", bytes "b"] ∧
    (SplitByAnyOf.new (bytes ",")).drain (bytes "a,b") = some [bytes "a", bytes "b"] :=
  ⟨by decide,
    drain_consecutive_delimiters (bytes ",") ⟨44, by decide⟩ ⟨44, by decide⟩ (bytes "a")
      (bytes "b") (by decide) (by decide),
    by decide, by decide⟩

/-! ## Lemmas on matrices and on the dictionary encoding policy -/

namespace Mat

theorem index_lt (R C r c : Nat) (hr : r < R) (hc : c < C) : r + c * R < R * C := by
  have h1 : (c + 1) * R ≤ C * R := Nat.mul_le_mul_right R hc
  have h2 : (c + 1) * R = c * R + R := by ring
  have h3 : C * R = R * C := Nat.mul_comm _ _
  omega

theorem index_inj (R r c r' c' : Nat) (hr : r < R) (hr' : r' < R)
    (h : r' + c' * R = r + c * R) : r' = r ∧ c' = c := by
  have hmod := congrArg (· % R) h
  simp only [Nat.add_mul_mod_self_right, Nat.mod_eq_of_lt hr, Nat.mod_eq_of_lt hr'] at hmod
  subst hmod
  have hmul : c' * R = c * R := by omega
  exact ⟨rfl, Nat.eq_of_mul_eq_mul_right (by omega : 0 < R) hmul⟩

theorem zeros_entry (m : Mat) (R C r c : Nat) : (m.zeros R C).entry r c = 0 := by
  simp only [entry, zeros, List.getD_eq_getElem?_getD, List.getElem?_replicate]
  split <;> rfl

theorem zeros_WF (m : Mat) (R C : Nat) : (m.zeros R C).WF := by
  simp [WF, zeros]

theorem atPut_spec (m : Mat) (r c v : Nat) (hwf : m.WF) (hr : r < m.n_rows)
    (hc : c < m.n_cols) :
    ∃ m', m.atPut r c v = some m' ∧ m'.n_rows = m.n_rows ∧ m'.n_cols = m.n_cols ∧ m'.WF ∧
      ∀ r' c', r' < m.n_rows →
        m'.entry r' c' = if r' = r ∧ c' = c then v else m.entry r' c' := by
  have hlt : r + c * m.n_rows < m.mem.length := by
    rw [hwf]; exact index_lt _ _ _ _ hr hc
  refine ⟨{ m with mem := m.mem.set (r + c * m.n_rows) v }, by simp [atPut, hlt], rfl, rfl,
    by simpa [WF] using hwf, ?_⟩
  intro r' c' hr'
  simp only [entry, List.getD_eq_getElem?_getD, List.getElem?_set]
  by_cases hidx : r + c * m.n_rows = r' + c' * m.n_rows
  · obtain ⟨h1, h2⟩ := index_inj _ _ _ _ _ hr hr' hidx.symm
    rw [if_pos hidx, if_pos hlt, if_pos ⟨h1, h2⟩]
    rfl
  · have hne : ¬ (r' = r ∧ c' = c) := by
      rintro ⟨h1, h2⟩
      exact hidx (by rw [h1, h2])
    rw [if_neg hidx, if_neg hne]

theorem put_spec (m : Mat) (r c v : Nat) (hwf : m.WF) (hr : r < m.n_rows)
    (hc : c < m.n_cols) :
    ∃ m', m.put r c v = some m' ∧ m'.n_rows = m.n_rows ∧ m'.n_cols = m.n_cols ∧ m'.WF ∧
      ∀ r' c', r' < m.n_rows →
        m'.entry r' c' = if r' = r ∧ c' = c then v else m.entry r' c' := by
  have : m.put r c v = m.atPut r c v := by simp [put, hr, hc]
  rw [this]
  exact atPut_spec m r c v hwf hr hc

end Mat

namespace DictionaryEncoding

theorem encodeRowFrom_spec (r : Nat) (ids : List Nat) :
    ∀ (c0 : Nat) (out : Mat), out.WF → r < out.n_rows → c0 + ids.length ≤ out.n_cols →
      ∃ out', encodeRowFrom r ids c0 out = some out' ∧ out'.n_rows = out.n_rows ∧
        out'.n_cols = out.n_cols ∧ out'.WF ∧
        ∀ r' c', r' < out.n_rows →
          out'.entry r' c' =
            if r' = r ∧ c0 ≤ c' ∧ c' < c0 + ids.length then ids.getD (c' - c0) 0
            else out.entry r' c' := by
  induction ids with
  | nil =>
    intro c0 out hwf _ _
    refine ⟨out, rfl, rfl, rfl, hwf, ?_⟩
    intro r' c' _
    have : ¬ (r' = r ∧ c0 ≤ c' ∧ c' < c0 + ([] : List Nat).length) := by
      simp only [List.length_nil]; omega
    rw [if_neg this]
  | cons id ids ih =>
    intro c0 out hwf hr hc
    simp only [List.length_cons] at hc
    obtain ⟨o1, h1, hR1, hC1, hwf1, he1⟩ := Mat.atPut_spec out r c0 id hwf hr (by omega)
    obtain ⟨o2, h2, hR2, hC2, hwf2, he2⟩ := ih (c0 + 1) o1 hwf1 (by omega) (by omega)
    refine ⟨o2, by simp [encodeRowFrom, Encode, h1, h2], by omega, by omega, hwf2, ?_⟩
    intro r' c' hr'
    rw [he2 r' c' (by omega), he1 r' c' hr']
    by_cases hrr : r' = r
    · by_cases hc1 : c' = c0
      · subst hc1
        simp [hrr]
      · by_cases hc2 : c0 + 1 ≤ c' ∧ c' < c0 + 1 + ids.length
        · have hsub : c' - c0 = (c' - (c0 + 1)) + 1 := by omega
          have hc3 : c0 ≤ c' ∧ c' < c0 + (id :: ids).length := by
            simp only [List.length_cons]; omega
          rw [if_pos ⟨hrr, hc2⟩, if_pos ⟨hrr, hc3⟩, hsub, List.getD_cons_succ]
        · have hc3 : ¬ (c0 ≤ c' ∧ c' < c0 + (id :: ids).length) := by
            simp only [List.length_cons]; omega
          rw [if_neg (fun h => hc2 h.2), if_neg (fun h => hc1 h.2), if_neg (fun h => hc3 h.2)]
    · rw [if_neg (fun h => hrr h.1), if_neg (fun h => hrr h.1), if_neg (fun h => hrr h.1)]

theorem encodeRowsFrom_spec (rows : List (List Nat)) :
    ∀ (r0 : Nat) (out : Mat), out.WF → r0 + rows.length ≤ out.n_rows →
      (∀ ids ∈ rows, ids.length ≤ out.n_cols) →
      ∃ out', encodeRowsFrom rows r0 out = some out' ∧ out'.n_rows = out.n_rows ∧
        out'.n_cols = out.n_cols ∧ out'.WF ∧
        ∀ r' c', r' < out.n_rows →
          out'.entry r' c' =
            if r0 ≤ r' ∧ r' < r0 + rows.length ∧ c' < (rows.getD (r' - r0) []).length
            then (rows.getD (r' - r0) []).getD c' 0
            else out.entry r' c' := by
  induction rows with
  | nil =>
    intro r0 out hwf _ _
    refine ⟨out, rfl, rfl, rfl, hwf, ?_⟩
    intro r' c' _
    simp
  | cons ids rest ih =>
    intro r0 out hwf hr hlen
    simp only [List.length_cons] at hr
    obtain ⟨o1, h1, hR1, hC1, hwf1, he1⟩ :=
      encodeRowFrom_spec r0 ids 0 out hwf (by omega)
        (by simpa using hlen ids (List.mem_cons_self _ _))
    obtain ⟨o2, h2, hR2, hC2, hwf2, he2⟩ := ih (r0 + 1) o1 hwf1 (by omega)
      (fun x hx => by rw [hC1]; exact hlen x (List.mem_cons_of_mem _ hx))
    refine ⟨o2, by simp [encodeRowsFrom, h1, h2], by omega, by omega, hwf2, ?_⟩
    intro r' c' hr'
    rw [he2 r' c' (by omega), he1 r' c' hr']
    by_cases hrr : r' = r0
    · subst hrr
      have hn : ¬ (r' + 1 ≤ r' ∧ r' < r' + 1 + rest.length ∧
          c' < (rest.getD (r' - (r' + 1)) []).length) := by omega
      rw [if_neg hn]
      simp
    · have hin : ¬ (r' = r0 ∧ 0 ≤ c' ∧ c' < 0 + ids.length) := fun h => hrr h.1
      rw [if_neg hin]
      by_cases hge : r0 + 1 ≤ r'
      · have hsub : r' - r0 = (r' - (r0 + 1)) + 1 := by omega
        rw [hsub, List.getD_cons_succ]
        by_cases hcond : r0 + 1 ≤ r' ∧ r' < r0 + 1 + rest.length ∧
            c' < (rest.getD (r' - (r0 + 1)) []).length
        · have hcond' : r0 ≤ r' ∧ r' < r0 + (ids :: rest).length ∧
              c' < (rest.getD (r' - (r0 + 1)) []).length := by
            simp only [List.length_cons]
            exact ⟨by omega, by omega, hcond.2.2⟩
          rw [if_pos hcond, if_pos hcond']
        · have hcond' : ¬ (r0 ≤ r' ∧ r' < r0 + (ids :: rest).length ∧
              c' < (rest.getD (r' - (r0 + 1)) []).length) := by
            simp only [List.length_cons]
            intro h
            exact hcond ⟨hge, by omega, h.2.2⟩
          rw [if_neg hcond, if_neg hcond']
      · have hc1 : ¬ (r0 + 1 ≤ r' ∧ r' < r0 + 1 + rest.length ∧
            c' < (rest.getD (r' - (r0 + 1)) []).length) := fun h => hge h.1
        have hc2 : ¬ (r0 ≤ r' ∧ r' < r0 + (ids :: rest).length ∧
            c' < ((ids :: rest).getD (r' - r0) []).length) := by
          intro h
          omega
        rw [if_neg hc1, if_neg hc2]

theorem encodeDense_spec (rows : List (List Nat)) (output : Mat)
    (datasetSize colSize mappingsSize : Nat) (hrows : rows.length ≤ datasetSize)
    (hlen : ∀ ids ∈ rows, ids.length ≤ colSize) :
    ∃ out, encodeDense rows output datasetSize colSize mappingsSize = some out ∧
      out.n_rows = datasetSize ∧ out.n_cols = colSize ∧
      ∀ r c, r < datasetSize →
        out.entry r c = if c < (rows.getD r []).length then (rows.getD r []).getD c 0 else 0 := by
  obtain ⟨out, h, hR, hC, _, he⟩ :=
    encodeRowsFrom_spec rows 0 (InitMatrix output datasetSize colSize mappingsSize)
      (Mat.zeros_WF _ _ _) (by simpa [InitMatrix, Mat.zeros] using hrows)
      (by simpa [InitMatrix, Mat.zeros] using hlen)
  refine ⟨out, h, hR, hC, ?_⟩
  intro r c hr
  rw [he r c hr]
  simp only [InitMatrix, Mat.zeros_entry, Nat.zero_le, true_and, Nat.zero_add, Nat.sub_zero]
  by_cases hrl : r < rows.length
  · simp [hrl]
  · have hnil : rows.getD r [] = [] := by
      simp [List.getD_eq_getElem?_getD, List.getElem?_eq_none (by omega : rows.length ≤ r)]
    rw [hnil]
    simp [hrl]

theorem foldl_EncodeVector (ids acc : List Nat) : ids.foldl EncodeVector acc = acc ++ ids := by
  induction ids generalizing acc with
  | nil => simp
  | cons e es ih => simp [List.foldl_cons, ih, EncodeVector]

theorem foldl_max_ge (rows : List (List Nat)) (m : Nat) :
    m ≤ rows.foldl (fun m ids => max m ids.length) m ∧
      ∀ ids ∈ rows, ids.length ≤ rows.foldl (fun m ids => max m ids.length) m := by
  induction rows generalizing m with
  | nil => simp
  | cons a rest ih =>
    obtain ⟨h1, h2⟩ := ih (max m a.length)
    refine ⟨le_trans (le_max_left _ _) h1, ?_⟩
    intro ids hids
    rcases List.mem_cons.mp hids with rfl | hids
    · exact le_trans (le_max_right _ _) h1
    · exact h2 ids hids

theorem length_le_maxRowLength (rows : List (List Nat)) :
    ∀ ids ∈ rows, ids.length ≤ maxRowLength rows :=
  (foldl_max_ge rows 0).2

end DictionaryEncoding

/-! ## Theorems on the dictionary encoding policy -/

/-- C6: padding correctness of the dense policy.  For id rows of lengths at
most `colSize` (at most `datasetSize` of them), `InitMatrix` followed by
`Encode(id, output, r, c)` for every row `r` and position `c` of that row
succeeds; the result has `datasetSize` rows and `colSize` columns and every
entry `(r, c)` at or beyond the length of row `r` is 0, whatever `output`
held before and whatever `mappingsSize` is. -/
theorem encodeDense_padding (rows : List (List Nat)) (output : Mat)
    (datasetSize colSize mappingsSize : Nat) (hrows : rows.length ≤ datasetSize)
    (hlen : ∀ ids ∈ rows, ids.length ≤ colSize) :
    ∃ out, DictionaryEncoding.encodeDense rows output datasetSize colSize mappingsSize = some out ∧
      out.n_rows = datasetSize ∧ out.n_cols = colSize ∧
      ∀ r c, r < datasetSize → c < colSize → (rows.getD r []).length ≤ c →
        out.entry r c = 0 := by
  obtain ⟨out, h, hR, hC, he⟩ :=
    DictionaryEncoding.encodeDense_spec rows output datasetSize colSize mappingsSize hrows hlen
  refine ⟨out, h, hR, hC, ?_⟩
  intro r c hr _ hc
  rw [he r c hr, if_neg (by omega)]

/-- Witness of C6: the rows [1 2] and [2 1 3] written into a matrix that
held something else before, with 3 rows and 4 columns. -/
theorem encodeDense_padding_witness :
    ([[1, 2], [2, 1, 3]] : List (List Nat)).length ≤ 3 ∧
    (∀ ids ∈ ([[1, 2], [2, 1, 3]] : List (List Nat)), ids.length ≤ 4) ∧
    ∃ out, DictionaryEncoding.encodeDense [[1, 2], [2, 1, 3]] ⟨1, 1, [5]⟩ 3 4 9 = some out ∧
      out.n_rows = 3 ∧ out.n_cols = 4 ∧
      ∀ r c, r < 3 → c < 4 → (([[1, 2], [2, 1, 3]] : List (List Nat)).getD r []).length ≤ c →
        out.entry r c = 0 :=
  ⟨by decide, by decide,
    encodeDense_padding [[1, 2], [2, 1, 3]] ⟨1, 1, [5]⟩ 3 4 9 (by decide) (by decide)⟩

/-- C7: the no-padding policy appends in order.  `Encode(v, e)` leaves `v`
equal to the old `v` followed by `e`; feeding the ids `e1 .. ek` one by one
into an empty row yields exactly `[e1, ..., ek]`, of length `k`. -/
theorem EncodeVector_appends :
    (∀ (v : List Nat) (e : Nat), DictionaryEncoding.EncodeVector v e = v ++ [e]) ∧
    ∀ es : List Nat, es.foldl DictionaryEncoding.EncodeVector [] = es ∧
      (es.foldl DictionaryEncoding.EncodeVector []).length = es.length := by
  refine ⟨fun v e => List.concat_eq_append _ _, fun es => ?_⟩
  rw [DictionaryEncoding.foldl_EncodeVector]
  simp

/-- C8: the padded and the unpadded outputs agree.  With `colSize` the
longest row length, the padded encoding succeeds and its row `r` is the
vector built for row `r` by the vector overload followed by
`colSize - len_r` zeros. -/
theorem encodeDense_row_eq_encodeVector (rows : List (List Nat)) (output : Mat)
    (mappingsSize : Nat) :
    ∃ out, DictionaryEncoding.encodeDense rows output rows.length
        (DictionaryEncoding.maxRowLength rows) mappingsSize = some out ∧
      ∀ r, r < rows.length →
        out.row r = DictionaryEncoding.encodeVector (rows.getD r []) ++
          List.replicate (DictionaryEncoding.maxRowLength rows - (rows.getD r []).length) 0 := by
  obtain ⟨out, h, hR, hC, he⟩ :=
    DictionaryEncoding.encodeDense_spec rows output rows.length
      (DictionaryEncoding.maxRowLength rows) mappingsSize (le_refl _)
      (DictionaryEncoding.length_le_maxRowLength rows)
  refine ⟨out, h, ?_⟩
  intro r hr
  have hmem : rows.getD r [] ∈ rows := by
    rw [List.getD_eq_getElem?_getD, List.getElem?_eq_getElem hr]
    exact List.getElem_mem _
  have hle := DictionaryEncoding.length_le_maxRowLength rows _ hmem
  unfold DictionaryEncoding.encodeVector
  rw [DictionaryEncoding.foldl_EncodeVector, List.nil_append]
  apply List.ext_getElem
  · simp only [Mat.row, hC, List.length_map, List.length_range, List.length_append,
      List.length_replicate]
    omega
  · intro i h1 h2
    simp only [Mat.row, List.getElem_map, List.getElem_range, he r i hr]
    by_cases hi : i < (rows.getD r []).length
    · rw [if_pos hi, List.getElem_append_left hi, List.getD_eq_getElem?_getD,
        List.getElem?_eq_getElem hi]
      rfl
    · rw [if_neg hi, List.getElem_append_right (by omega)]
      simp

/-- Witness of C8: the ids [1 2] and [2 1 3] give the matrix rows [1 2 0]
and [2 1 3] and the vectors [1 2] and [2 1 3]. -/
theorem encodeDense_row_eq_encodeVector_witness :
    ∃ out, DictionaryEncoding.encodeDense [[1, 2], [2, 1, 3]] ⟨0, 0, []⟩ 2 3 3 = some out ∧
      out.row 0 = [1, 2, 0] ∧ out.row 1 = [2, 1, 3] ∧
      DictionaryEncoding.encodeVector [1, 2] = [1, 2] ∧
      DictionaryEncoding.encodeVector [2, 1, 3] = [2, 1, 3] := by
  obtain ⟨out, h, hrow⟩ := encodeDense_row_eq_encodeVector [[1, 2], [2, 1, 3]] ⟨0, 0, []⟩ 3
  exact ⟨out, h, hrow 0 (by decide), hrow 1 (by decide), by decide, by decide⟩

/-! ## Lemmas on one-hot encoding -/

namespace LabelMap

variable {κ : Type} [DecidableEq κ]

theorem lookup_isSome_iff (m : LabelMap κ) (x : κ) :
    (m.lookup x).isSome = true ↔ x ∈ m.map Prod.fst := by
  induction m with
  | nil => simp
  | cons e es ih =>
    obtain ⟨k, v⟩ := e
    rw [List.lookup_cons]
    by_cases h : x = k
    · subst h
      simp
    · have hb : (x == k) = false := by simpa using h
      simp [hb, ih, h]

theorem lookup_append_of_mem (m l : LabelMap κ) (x : κ) (h : x ∈ m.map Prod.fst) :
    (m ++ l).lookup x = m.lookup x := by
  induction m with
  | nil => simp at h
  | cons e es ih =>
    obtain ⟨k, v⟩ := e
    rw [List.cons_append, List.lookup_cons, List.lookup_cons]
    by_cases hx : x = k
    · subst hx
      simp
    · have hb : (x == k) = false := by simpa using hx
      have hmem : x ∈ es.map Prod.fst := by
        simpa [hx] using h
      simp [hb, ih hmem]

theorem lookup_append_of_not_mem (m l : LabelMap κ) (x : κ) (h : x ∉ m.map Prod.fst) :
    (m ++ l).lookup x = l.lookup x := by
  induction m with
  | nil => simp
  | cons e es ih =>
    obtain ⟨k, v⟩ := e
    rw [List.cons_append, List.lookup_cons]
    have hx : ¬ x = k := by
      intro hxk
      exact h (by simp [hxk])
    have hb : (x == k) = false := by simpa using hx
    have hmem : x ∉ es.map Prod.fst := by
      intro hm
      exact h (by simp only [List.map_cons, List.mem_cons]; exact Or.inr hm)
    simp [hb, ih hmem]

end LabelMap

theorem sizeSub_succ_one (v : Nat) : sizeSub (v + 1) 1 = v := by
  simp [sizeSub]

namespace OneHotEncoding

variable {κ : Type} [DecidableEq κ]

theorem inv_init (n : Nat) : Inv ([] : List κ) n (initState n) where
  nodup := by simp [keys, initState]
  mem := by simp [keys, initState]
  val := by simp [keys, initState]
  cur := by simp [keys, initState]
  len := by simp [initState]
  lab := by simp

theorem inv_step (p : List κ) (n : Nat) (st : OneHotState κ) (x : κ) (h : Inv p n st)
    (hn : p.length < n) : Inv (p ++ [x]) n (keyStep x p.length st) := by
  by_cases hx : x ∈ keys st
  · have hcount : st.labelMap.count x ≠ 0 := by
      simp [LabelMap.count, (LabelMap.lookup_isSome_iff st.labelMap x).mpr hx]
    have hst : keyStep x p.length st
        = { st with labels := st.labels.set p.length ((keys st).indexOf x) } := by
      simp only [keyStep, hcount, ne_eq, not_false_eq_true, if_true, LabelMap.get, h.val x hx,
        Option.getD_some, sizeSub_succ_one]
    rw [hst]
    refine ⟨h.nodup, ?_, h.val, h.cur, by simpa using h.len, ?_⟩
    · intro y
      rw [List.mem_append, List.mem_singleton]
      constructor
      · intro hy
        exact Or.inl ((h.mem y).mp hy)
      · rintro (hy | rfl)
        · exact (h.mem y).mpr hy
        · exact hx
    · intro j y hj
      show (st.labels.set p.length ((keys st).indexOf x))[j]? = some ((keys st).indexOf y)
      by_cases hjp : j < p.length
      · rw [List.getElem?_append_left hjp] at hj
        rw [List.getElem?_set_ne (by omega)]
        exact h.lab j y hj
      · have hjl : j = p.length := by
          by_contra hne
          have : (p ++ [x]).length ≤ j := by simp; omega
          rw [List.getElem?_eq_none this] at hj
          exact Option.noConfusion hj
        subst hjl
        rw [List.getElem?_append_right (le_refl _)] at hj
        simp only [Nat.sub_self, List.getElem?_cons_zero, Option.some.injEq] at hj
        subst hj
        rw [List.getElem?_set_self (by rw [h.len]; exact hn)]
  · have hnone : (st.labelMap.lookup x).isSome = false := by
      rw [Bool.eq_false_iff]
      intro hs
      exact hx ((LabelMap.lookup_isSome_iff st.labelMap x).mp (by simpa using hs))
    have hst : keyStep x p.length st
        = { labelMap := st.labelMap ++ [(x, st.curLabel + 1)]
            labels := st.labels.set p.length st.curLabel
            curLabel := st.curLabel + 1 } := by
      simp [keyStep, LabelMap.count, LabelMap.assign, hnone]
    rw [hst]
    have hkeys : keys ({ labelMap := st.labelMap ++ [(x, st.curLabel + 1)]
                         labels := st.labels.set p.length st.curLabel
                         curLabel := st.curLabel + 1 } : OneHotState κ) = keys st ++ [x] := by
      simp [keys]
    refine ⟨?_, ?_, ?_, ?_, by simpa using h.len, ?_⟩
    · rw [hkeys]
      refine List.Nodup.append h.nodup (List.nodup_singleton x) ?_
      intro a ha hax
      rw [List.mem_singleton] at hax
      exact hx (hax ▸ ha)
    · intro y
      rw [hkeys, List.mem_append, List.mem_append, h.mem y]
    · intro y hy
      rw [hkeys] at hy ⊢
      show (st.labelMap ++ [(x, st.curLabel + 1)]).lookup y = _
      by_cases hyk : y ∈ keys st
      · rw [LabelMap.lookup_append_of_mem _ _ _ hyk, List.indexOf_append_of_mem hyk]
        exact h.val y hyk
      · have hyx : y = x := by
          rcases List.mem_append.mp hy with h1 | h1
          · exact absurd h1 hyk
          · simpa using h1
        subst hyx
        rw [LabelMap.lookup_append_of_not_mem _ _ _ hyk, List.indexOf_append_of_not_mem hyk]
        simp [List.lookup_cons, h.cur]
    · rw [hkeys]
      simp [h.cur]
    · intro j y hj
      rw [hkeys]
      show (st.labels.set p.length st.curLabel)[j]? = _
      by_cases hjp : j < p.length
      · rw [List.getElem?_append_left hjp] at hj
        have hyk : y ∈ keys st := (h.mem y).mpr (List.mem_iff_getElem?.mpr ⟨j, hj⟩)
        rw [List.getElem?_set_ne (by omega), List.indexOf_append_of_mem hyk]
        exact h.lab j y hj
      · have hjl : j = p.length := by
          by_contra hne
          have : (p ++ [x]).length ≤ j := by simp; omega
          rw [List.getElem?_eq_none this] at hj
          exact Option.noConfusion hj
        subst hjl
        rw [List.getElem?_append_right (le_refl _)] at hj
        simp only [Nat.sub_self, List.getElem?_cons_zero, Option.some.injEq] at hj
        subst hj
        rw [List.getElem?_set_self (by rw [h.len]; exact hn),
          List.indexOf_append_of_not_mem hx]
        simp [h.cur]

theorem inv_keyLoop (rest : List κ) :
    ∀ (p : List κ) (n : Nat) (st : OneHotState κ), Inv p n st → p.length + rest.length ≤ n →
      Inv (p ++ rest) n (keyLoop rest p.length st) := by
  induction rest with
  | nil =>
    intro p n st h _
    simpa [keyLoop] using h
  | cons x rest ih =>
    intro p n st h hn
    simp only [List.length_cons] at hn
    have h1 := inv_step p n st x h (by omega)
    have h2 := ih (p ++ [x]) n _ h1 (by simp; omega)
    simpa [keyLoop] using h2

theorem inv_final (labelsIn : List κ) :
    Inv labelsIn labelsIn.length (keyLoop labelsIn 0 (initState labelsIn.length)) := by
  simpa using inv_keyLoop labelsIn [] labelsIn.length _ (inv_init _) (by simp)

theorem fillLoop_spec (labels : List Nat) (cnt : Nat) :
    ∀ (i : Nat) (out : Mat), out.WF → i + cnt ≤ out.n_rows →
      (∀ j, i ≤ j → j < i + cnt → labels.getD j 0 < out.n_cols) →
      ∃ out', fillLoop labels cnt i out = some out' ∧ out'.n_rows = out.n_rows ∧
        out'.n_cols = out.n_cols ∧ out'.WF ∧
        ∀ r c, r < out.n_rows →
          out'.entry r c =
            if i ≤ r ∧ r < i + cnt ∧ c = labels.getD r 0 then 1 else out.entry r c := by
  induction cnt with
  | zero =>
    intro i out hwf _ _
    refine ⟨out, rfl, rfl, rfl, hwf, ?_⟩
    intro r c _
    have : ¬ (i ≤ r ∧ r < i + 0 ∧ c = labels.getD r 0) := by omega
    rw [if_neg this]
  | succ cnt ih =>
    intro i out hwf hi hlab
    obtain ⟨o1, h1, hR1, hC1, hwf1, he1⟩ :=
      Mat.put_spec out i (labels.getD i 0) 1 hwf (by omega) (hlab i (le_refl _) (by omega))
    obtain ⟨o2, h2, hR2, hC2, hwf2, he2⟩ := ih (i + 1) o1 hwf1 (by omega)
      (fun j hj1 hj2 => by rw [hC1]; exact hlab j (by omega) (by omega))
    refine ⟨o2, by rw [fillLoop, h1]; exact h2, by omega, by omega, hwf2, ?_⟩
    intro r c hr
    rw [he2 r c (by omega), he1 r c hr]
    by_cases hri : r = i
    · subst hri
      have hn : ¬ (r + 1 ≤ r ∧ r < r + 1 + cnt ∧ c = labels.getD r 0) := by omega
      rw [if_neg hn]
      by_cases hc : c = labels.getD r 0
      · rw [if_pos ⟨rfl, hc⟩, if_pos ⟨le_refl _, by omega, hc⟩]
      · rw [if_neg (fun h => hc h.2), if_neg (fun h => hc h.2.2)]
    · have hn : ¬ (r = i ∧ c = labels.getD i 0) := fun h => hri h.1
      rw [if_neg hn]
      by_cases hcond : i + 1 ≤ r ∧ r < i + 1 + cnt ∧ c = labels.getD r 0
      · have hcond' : i ≤ r ∧ r < i + (cnt + 1) ∧ c = labels.getD r 0 :=
          ⟨by omega, by omega, hcond.2.2⟩
        rw [if_pos hcond, if_pos hcond']
      · have hcond' : ¬ (i ≤ r ∧ r < i + (cnt + 1) ∧ c = labels.getD r 0) := by
          intro h
          exact hcond ⟨by omega, by omega, h.2.2⟩
        rw [if_neg hcond, if_neg hcond']

/-- The result of `OneHotEncoding` on converted labels in closed form: with
`K` the distinct keys in the order of their insertion into the map, the output is the
`n x |K|` matrix whose entry `(i, c)` is 1 exactly when `c` is the rank of
`labelsIn[i]` in `K`. -/
theorem closed_form (labelsIn : List κ) (output : Mat) :
    ∃ out, onKeys labelsIn output = some out ∧
      out.n_rows = labelsIn.length ∧
      out.n_cols = (keys (keyLoop labelsIn 0 (initState labelsIn.length))).length ∧
      (keys (keyLoop labelsIn 0 (initState labelsIn.length))).Nodup ∧
      (∀ x, x ∈ keys (keyLoop labelsIn 0 (initState labelsIn.length)) ↔ x ∈ labelsIn) ∧
      ∀ i x, labelsIn[i]? = some x → ∀ c,
        out.entry i c =
          if c = (keys (keyLoop labelsIn 0 (initState labelsIn.length))).indexOf x then 1
          else 0 := by
  have hinv := inv_final labelsIn
  generalize hst : keyLoop labelsIn 0 (initState labelsIn.length) = st at hinv
  have hlabels : ∀ j, j < labelsIn.length → ∀ x, labelsIn[j]? = some x →
      st.labels.getD j 0 = (keys st).indexOf x := by
    intro j _ x hx
    rw [List.getD_eq_getElem?_getD, hinv.lab j x hx]
    rfl
  obtain ⟨out, h, hR, hC, _, he⟩ :=
    fillLoop_spec st.labels labelsIn.length 0 (output.zeros labelsIn.length st.curLabel)
      (Mat.zeros_WF _ _ _) (by simp [Mat.zeros])
      (by
        intro j _ hj
        have hj' : j < labelsIn.length := by omega
        rw [hlabels j hj' labelsIn[j] (List.getElem?_eq_getElem hj')]
        show _ < st.curLabel
        rw [hinv.cur, List.indexOf_lt_length, hinv.mem]
        exact List.getElem_mem _)
  refine ⟨out, ?_, by simpa [Mat.zeros] using hR, ?_, hinv.nodup, hinv.mem, ?_⟩
  · simp only [onKeys, hst]
    exact h
  · rw [hC]
    show st.curLabel = _
    exact hinv.cur
  · intro i x hx c
    have hi : i < labelsIn.length := (List.getElem?_eq_some.mp hx).1
    rw [he i c (by simpa [Mat.zeros] using hi), Mat.zeros_entry, hlabels i hi x hx]
    by_cases hc : c = (keys st).indexOf x
    · rw [if_pos hc, if_pos ⟨Nat.zero_le _, by omega, hc⟩]
    · rw [if_neg hc, if_neg (fun h => hc h.2.2)]

end OneHotEncoding

/-! ## One-hot encoding: from the labels to their keys -/

namespace OneHotEncoding

variable {α κ : Type} [DecidableEq κ]

theorem mapStep_eq (conv : α → κ) (x : α) (i : Nat) (st : OneHotState κ) :
    mapStep conv x i st = keyStep (conv x) i st := rfl

theorem mapLoop_eq (conv : α → κ) (labelsIn : List α) :
    ∀ (i : Nat) (st : OneHotState κ),
      mapLoop conv labelsIn i st = keyLoop (labelsIn.map conv) i st := by
  induction labelsIn with
  | nil => intro i st; rfl
  | cons x rest ih =>
    intro i st
    rw [mapLoop, List.map_cons, keyLoop, mapStep_eq, ih]

theorem OneHotEncoding_eq (conv : α → κ) (labelsIn : List α) (output : Mat) :
    OneHotEncoding conv labelsIn output = onKeys (labelsIn.map conv) output := by
  unfold OneHotEncoding onKeys
  rw [mapLoop_eq, List.length_map]

end OneHotEncoding

/-! ## Theorems on one-hot encoding -/

namespace OneHotEncoding

end OneHotEncoding

namespace SplitByAnyOf

theorem mask_fold_length (D : List Byte) (m : List Bool) :
    (D.foldl (fun mask symbol => mask.set (toUChar (charValue symbol)) true) m).length
      = m.length := by
  induction D generalizing m with
  | nil => rfl
  | cons d D ih => rw [List.foldl_cons, ih, List.length_set]

theorem FindFirstDelimiter_eq_some_iff (t : SplitByAnyOf) (str : List Byte) :
    ∀ pos, t.FindFirstDelimiter str = some pos ↔
      (∃ c, str[pos]? = some c ∧ t.isDelimiter c = true) ∧
        ∀ j c, j < pos → str[j]? = some c → ¬ t.isDelimiter c = true := by
  induction str with
  | nil =>
    intro pos
    simp [FindFirstDelimiter_nil]
  | cons a as ih =>
    intro pos
    rw [FindFirstDelimiter_cons]
    by_cases ha : t.isDelimiter a = true
    · rw [if_pos ha]
      constructor
      · intro h
        have hp : pos = 0 := by simpa using h.symm
        subst hp
        exact ⟨⟨a, by simp, ha⟩, fun j c hj => by omega⟩
      · rintro ⟨_, hall⟩
        cases pos with
        | zero => rfl
        | succ p => exact absurd ha (hall 0 a (by omega) (by simp))
    · rw [if_neg ha]
      cases pos with
      | zero =>
        constructor
        · intro h
          cases hf : t.FindFirstDelimiter as with
          | none => rw [hf] at h; exact Option.noConfusion h
          | some p =>
            rw [hf] at h
            simp at h
        · rintro ⟨⟨c, hc, hd⟩, _⟩
          simp only [List.getElem?_cons_zero, Option.some.injEq] at hc
          exact absurd (hc ▸ hd) ha
      | succ p =>
        have hmap : (Option.map (fun x => x + 1) (t.FindFirstDelimiter as) = some (p + 1))
            ↔ t.FindFirstDelimiter as = some p := by
          cases t.FindFirstDelimiter as with
          | none => simp
          | some q => simp
        rw [hmap, ih p]
        constructor
        · rintro ⟨⟨c, hc, hd⟩, hall⟩
          refine ⟨⟨c, by simpa using hc, hd⟩, ?_⟩
          intro j c' hj hc'
          cases j with
          | zero =>
            simp only [List.getElem?_cons_zero, Option.some.injEq] at hc'
            exact hc' ▸ ha
          | succ j => exact hall j c' (by omega) (by simpa using hc')
        · rintro ⟨⟨c, hc, hd⟩, hall⟩
          refine ⟨⟨c, by simpa using hc, hd⟩, ?_⟩
          intro j c' hj hc'
          exact hall (j + 1) c' (by omega) (by simpa using hc')

theorem FindFirstDelimiter_eq_none_iff (t : SplitByAnyOf) (str : List Byte) :
    t.FindFirstDelimiter str = none ↔ ∀ c ∈ str, ¬ t.isDelimiter c = true := by
  rw [FindFirstDelimiter_eq]
  constructor
  · intro h
    by_cases hd : str.dropWhile (fun c => !t.isDelimiter c) = []
    · intro c hc
      simpa using List.dropWhile_eq_nil_iff.mp hd c hc
    · rw [if_neg hd] at h
      exact Option.noConfusion h
  · intro h
    rw [if_pos]
    rw [List.dropWhile_eq_nil_iff]
    intro c hc
    simpa using h c hc

end SplitByAnyOf

/-- C16: for every delimiter string the constructor builds a mask of 256
entries in which entry `b` is true if and only if byte `b` occurs among the
delimiters; every index computed by the cast to `unsigned char` is below 256
(for negative `char` values, the bytes from 128 on, too) and is the byte
itself; `FindFirstDelimiter` returns the smallest position whose byte is a
delimiter, and `npos` exactly when the view holds no delimiter. -/
theorem mask_and_FindFirstDelimiter (delimiters : List Byte) :
    (SplitByAnyOf.new delimiters).mask.length = 256 ∧
    (∀ b : Byte, (SplitByAnyOf.new delimiters).mask.getD b.val false = true ↔ b ∈ delimiters) ∧
    (∀ c : Int, toUChar c < 256) ∧
    (∀ b : Byte, toUChar (charValue b) = b.val) ∧
    (∀ (str : List Byte) (pos : Nat),
      (SplitByAnyOf.new delimiters).FindFirstDelimiter str = some pos ↔
        (∃ c, str[pos]? = some c ∧ c ∈ delimiters) ∧
          ∀ j c, j < pos → str[j]? = some c → c ∉ delimiters) ∧
    (∀ str : List Byte,
      (SplitByAnyOf.new delimiters).FindFirstDelimiter str = none ↔
        ∀ c ∈ str, c ∉ delimiters) := by
  refine ⟨?_, ?_, toUChar_lt, toUChar_charValue, ?_, ?_⟩
  · unfold SplitByAnyOf.new
    rw [SplitByAnyOf.mask_fold_length, List.length_replicate]
    decide
  · intro b
    have h := SplitByAnyOf.isDelimiter_new delimiters b
    unfold SplitByAnyOf.isDelimiter at h
    rw [toUChar_charValue] at h
    rw [h]
    simp
  · intro str pos
    rw [SplitByAnyOf.FindFirstDelimiter_eq_some_iff]
    simp only [SplitByAnyOf.isDelimiter_new, decide_eq_true_eq]
  · intro str
    rw [SplitByAnyOf.FindFirstDelimiter_eq_none_iff]
    simp only [SplitByAnyOf.isDelimiter_new, decide_eq_true_eq]

/-- C17: tokenizing terminates.  One call of `SplitByAnyOf(D)` on the view
`s` finishes within `|s| + 1` iterations of its loop (more fuel changes
nothing); a call that returns a non-empty token leaves a strictly shorter
view; the consumer loop that calls the tokenizer until the token is empty
stops within `|s| + 1` calls. -/
theorem tokenizer_terminates (D s : List Byte) :
    (∃ result, (SplitByAnyOf.new D).loop (s.length + 1) s = some result ∧
      ∀ fuel, s.length + 1 ≤ fuel → (SplitByAnyOf.new D).loop fuel s = some result) ∧
    (∀ token rest, (SplitByAnyOf.new D).call s = some (token, rest) → token ≠ [] →
      rest.length < s.length) ∧
    (∃ tokens, (SplitByAnyOf.new D).drainLoop (s.length + 1) s = some tokens ∧
      ∀ fuel, s.length + 1 ≤ fuel → (SplitByAnyOf.new D).drainLoop fuel s = some tokens) := by
  refine ⟨⟨_, SplitByAnyOf.loop_eq _ s _ (Nat.lt_succ_self _),
      fun fuel h => SplitByAnyOf.loop_eq _ s fuel (by omega)⟩, ?_,
    ⟨_, SplitByAnyOf.drainLoop_eq _ _ s (Nat.lt_succ_self _),
      fun fuel h => SplitByAnyOf.drainLoop_eq _ fuel s (by omega)⟩⟩
  intro token rest hcall hne
  rw [SplitByAnyOf.call_eq] at hcall
  have h1 : ((SplitByAnyOf.new D).nextToken s).1 = token := by
    rw [Option.some.inj hcall]
  have h2 : ((SplitByAnyOf.new D).nextToken s).2 = rest := by
    rw [Option.some.inj hcall]
  rw [← h2]
  exact SplitByAnyOf.nextToken_length_lt _ s (by rw [h1]; exact hne)

/-- Witness of C17 on the view ",a,,b" split at commas: the first call
returns "a" and leaves ",b". -/
theorem tokenizer_terminates_witness :
    (SplitByAnyOf.new (bytes ",")).call (bytes ",a,,b") = some (bytes "a", bytes ",b") ∧
    bytes "a" ≠ [] ∧ (bytes ",b").length < (bytes ",a,,b").length ∧
    (SplitByAnyOf.new (bytes ",")).drainLoop ((bytes ",a,,b").length + 1) (bytes ",a,,b")
      = some [bytes "a", bytes "b"] :=
  ⟨by decide, by decide,
    (tokenizer_terminates (bytes ",") (bytes ",a,,b")).2.1 (bytes "a") (bytes ",b")
      (by decide) (by decide),
    by decide⟩

/-! ## Lemmas on the first-seen order -/

section FirstSeen

variable {τ : Type} [DecidableEq τ]

theorem foldl_insertNew_extends (l : List τ) :
    ∀ acc : List τ, ∃ t, l.foldl insertNew acc = acc ++ t := by
  induction l with
  | nil => intro acc; exact ⟨[], by simp⟩
  | cons a l ih =>
    intro acc
    obtain ⟨t, ht⟩ := ih (insertNew acc a)
    rw [List.foldl_cons, ht]
    unfold insertNew
    split
    · exact ⟨t, rfl⟩
    · exact ⟨a :: t, by simp⟩

theorem mem_foldl_insertNew (l : List τ) :
    ∀ (acc : List τ) (x : τ), x ∈ l.foldl insertNew acc ↔ x ∈ acc ∨ x ∈ l := by
  induction l with
  | nil => intro acc x; simp
  | cons a l ih =>
    intro acc x
    rw [List.foldl_cons, ih]
    unfold insertNew
    by_cases ha : a ∈ acc
    · rw [if_pos ha, List.mem_cons]
      constructor
      · rintro (h | h)
        · exact Or.inl h
        · exact Or.inr (Or.inr h)
      · rintro (h | h | h)
        · exact Or.inl h
        · exact Or.inl (h ▸ ha)
        · exact Or.inr h
    · rw [if_neg ha, List.mem_append, List.mem_singleton, List.mem_cons]
      tauto

theorem nodup_foldl_insertNew (l : List τ) :
    ∀ acc : List τ, acc.Nodup → (l.foldl insertNew acc).Nodup := by
  induction l with
  | nil => intro acc h; exact h
  | cons a l ih =>
    intro acc h
    rw [List.foldl_cons]
    apply ih
    unfold insertNew
    by_cases ha : a ∈ acc
    · rw [if_pos ha]; exact h
    · rw [if_neg ha]
      refine List.Nodup.append h (List.nodup_singleton a) ?_
      intro b hb hba
      rw [List.mem_singleton] at hba
      exact ha (hba ▸ hb)

theorem mem_firstSeen (l : List τ) (x : τ) : x ∈ firstSeen l ↔ x ∈ l := by
  unfold firstSeen
  rw [mem_foldl_insertNew]
  simp

theorem nodup_firstSeen (l : List τ) : (firstSeen l).Nodup :=
  nodup_foldl_insertNew l [] List.nodup_nil

theorem length_eq_dedup_of_nodup (K l : List τ) (hK : K.Nodup) (hmem : ∀ x, x ∈ K ↔ x ∈ l) :
    K.length = l.dedup.length :=
  ((List.perm_ext_iff_of_nodup hK (List.nodup_dedup l)).mpr
    (fun x => by rw [hmem, List.mem_dedup])).length_eq

theorem length_firstSeen (l : List τ) : (firstSeen l).length = l.dedup.length :=
  length_eq_dedup_of_nodup _ _ (nodup_firstSeen l) (mem_firstSeen l)

theorem not_mem_take_indexOf (l : List τ) (x : τ) : x ∉ l.take (l.indexOf x) := by
  induction l with
  | nil => simp
  | cons a l ih =>
    by_cases ha : a = x
    · rw [List.indexOf_cons_eq _ ha]
      simp
    · rw [List.indexOf_cons_ne _ ha, Nat.succ_eq_add_one, List.take_succ_cons, List.mem_cons]
      rintro (h | h)
      · exact ha h.symm
      · exact ih h

theorem split_at_indexOf (l : List τ) (x : τ) (hx : x ∈ l) :
    l = l.take (l.indexOf x) ++ x :: l.drop (l.indexOf x + 1) := by
  have hlt : l.indexOf x < l.length := List.indexOf_lt_length.mpr hx
  conv_lhs => rw [← List.take_append_drop (l.indexOf x) l, List.drop_eq_getElem_cons hlt,
    List.getElem_indexOf hlt]

theorem indexOf_firstSeen (l : List τ) (x : τ) (hx : x ∈ l) :
    (firstSeen l).indexOf x = distinctBefore l x := by
  have hsplit := split_at_indexOf l x hx
  have hnot : x ∉ firstSeen (l.take (l.indexOf x)) := by
    rw [mem_firstSeen]
    exact not_mem_take_indexOf l x
  have h1 : firstSeen l
      = (l.drop (l.indexOf x + 1)).foldl insertNew
          (firstSeen (l.take (l.indexOf x)) ++ [x]) := by
    have hins : insertNew (firstSeen (l.take (l.indexOf x))) x
        = firstSeen (l.take (l.indexOf x)) ++ [x] := by
      unfold insertNew
      rw [if_neg hnot]
    conv_lhs => rw [hsplit]
    rw [← hins]
    simp only [firstSeen, List.foldl_append, List.foldl_cons]
  obtain ⟨t, ht⟩ := foldl_insertNew_extends (l.drop (l.indexOf x + 1))
    (firstSeen (l.take (l.indexOf x)) ++ [x])
  rw [h1, ht, List.indexOf_append_of_mem (by simp), List.indexOf_append_of_not_mem hnot,
    List.indexOf_cons_self, Nat.add_zero, length_firstSeen]
  rfl

theorem getElem?_firstSeen_distinctBefore (l : List τ) (x : τ) (hx : x ∈ l) :
    (firstSeen l)[distinctBefore l x]? = some x := by
  have hlt : (firstSeen l).indexOf x < (firstSeen l).length :=
    List.indexOf_lt_length.mpr ((mem_firstSeen l x).mpr hx)
  rw [← indexOf_firstSeen l x hx]
  exact List.getElem?_eq_some.mpr ⟨hlt, List.getElem_indexOf hlt⟩

theorem firstSeenOrder_firstSeen (l : List τ) : FirstSeenOrder (firstSeen l) l :=
  ⟨nodup_firstSeen l, mem_firstSeen l, indexOf_firstSeen l⟩

end FirstSeen

/-! ## Order of the categories and range of the accesses of one-hot encoding -/

namespace LabelMap

variable {κ : Type} [DecidableEq κ]

theorem lookup_of_mem (m : LabelMap κ) (hnd : (m.map Prod.fst).Nodup) (e : κ × Nat)
    (he : e ∈ m) : m.lookup e.1 = some e.2 := by
  induction m with
  | nil => simp at he
  | cons a as ih =>
    obtain ⟨k, v⟩ := a
    rw [List.map_cons, List.nodup_cons] at hnd
    rw [List.lookup_cons]
    rcases List.mem_cons.mp he with rfl | hmem
    · simp
    · have hne : ¬ e.1 = k := by
        intro hk
        have hin : e.1 ∈ as.map Prod.fst := List.mem_map_of_mem Prod.fst hmem
        rw [hk] at hin
        exact hnd.1 hin
      have hb : (e.1 == k) = false := by simpa using hne
      rw [hb]
      exact ih hnd.2 hmem

end LabelMap

namespace OneHotEncoding

variable {κ : Type} [DecidableEq κ]

theorem inv_prefix (labelsIn : List κ) (i : Nat) :
    Inv (labelsIn.take i) labelsIn.length
      (keyLoop (labelsIn.take i) 0 (initState labelsIn.length)) := by
  have h := inv_keyLoop (labelsIn.take i) [] labelsIn.length _ (inv_init _)
    (by simp)
  simpa using h

end OneHotEncoding

namespace OneHotEncoding

variable {κ : Type} [DecidableEq κ]

theorem in_range_keys (labelsIn : List κ) (output : Mat) :
    (∀ i, ∀ e ∈ (keyLoop (labelsIn.take i) 0
          (initState labelsIn.length)).labelMap,
        1 ≤ e.2 ∧ sizeSub e.2 1 + 1 = e.2 ∧
          e.2 ≤ (keyLoop labelsIn 0
            (initState labelsIn.length)).curLabel) ∧
    (∀ i, i < labelsIn.length →
      (keyLoop labelsIn 0 (initState labelsIn.length)).labels.getD i 0
        < (keyLoop labelsIn 0
            (initState labelsIn.length)).curLabel) ∧
    (∃ out, onKeys labelsIn output = some out ∧ out.n_rows = labelsIn.length ∧
      out.n_cols = (keyLoop labelsIn 0
        (initState labelsIn.length)).curLabel) ∧
    onKeys ([] : List κ) output = some ⟨0, 0, []⟩ := by
  have hfin := inv_final labelsIn
  refine ⟨?_, ?_, ?_, rfl⟩
  · intro i e he
    have hinv := inv_prefix labelsIn i
    have hlook := LabelMap.lookup_of_mem _ hinv.nodup e he
    have hkey : e.1 ∈ keys (keyLoop (labelsIn.take i) 0
        (initState labelsIn.length)) :=
      List.mem_map_of_mem Prod.fst he
    rw [hinv.val e.1 hkey, Option.some.injEq] at hlook
    have hlt := List.indexOf_lt_length.mpr hkey
    have hle : (keys (keyLoop (labelsIn.take i) 0
        (initState labelsIn.length))).length
        ≤ (keys (keyLoop labelsIn 0
            (initState labelsIn.length))).length := by
      rw [length_eq_dedup_of_nodup _ _ hinv.nodup hinv.mem,
        length_eq_dedup_of_nodup _ _ hfin.nodup hfin.mem]
      apply List.Subperm.length_le
      apply List.subperm_of_subset (List.nodup_dedup _)
      intro a ha
      rw [List.mem_dedup] at ha ⊢
      exact List.mem_of_mem_take ha
    rw [hfin.cur, ← hlook]
    refine ⟨by omega, sizeSub_succ_one _ ▸ rfl, by omega⟩
  · intro i hi
    have hlab := hfin.lab i labelsIn[i] (List.getElem?_eq_getElem hi)
    rw [List.getD_eq_getElem?_getD, hlab, Option.getD_some, hfin.cur, List.indexOf_lt_length,
      hfin.mem]
    exact List.getElem_mem _
  · obtain ⟨out, h, hR, hC, _⟩ := closed_form labelsIn output
    exact ⟨out, h, hR, by rw [hC, hfin.cur]⟩

end OneHotEncoding

/-- C19: `OneHotEncoding(labelsIn, output)` never indexes out of range,
whatever the conversion of the labels to the key type of the map.  In every
state of the first loop (after `i` labels) each value stored in the map is
at least 1, so that subtracting 1 does not wrap around; each `labels[i]` is
below the final `curLabel`; the call succeeds, every checked write falling
inside the `n x curLabel` matrix; for an empty `labelsIn` the output is the
`0 x 0` matrix. -/
theorem OneHotEncoding_in_range {α κ : Type} [DecidableEq κ] (conv : α → κ)
    (labelsIn : List α) (output : Mat) :
    (∀ i, ∀ e ∈ (OneHotEncoding.mapLoop conv (labelsIn.take i) 0
          (OneHotEncoding.initState labelsIn.length)).labelMap,
        1 ≤ e.2 ∧ sizeSub e.2 1 + 1 = e.2 ∧
          e.2 ≤ (OneHotEncoding.mapLoop conv labelsIn 0
            (OneHotEncoding.initState labelsIn.length)).curLabel) ∧
    (∀ i, i < labelsIn.length →
      (OneHotEncoding.mapLoop conv labelsIn 0
          (OneHotEncoding.initState labelsIn.length)).labels.getD i 0
        < (OneHotEncoding.mapLoop conv labelsIn 0
            (OneHotEncoding.initState labelsIn.length)).curLabel) ∧
    (∃ out, OneHotEncoding conv labelsIn output = some out ∧ out.n_rows = labelsIn.length ∧
      out.n_cols = (OneHotEncoding.mapLoop conv labelsIn 0
        (OneHotEncoding.initState labelsIn.length)).curLabel) ∧
    OneHotEncoding conv ([] : List α) output = some ⟨0, 0, []⟩ := by
  obtain ⟨h1, h2, h3, _⟩ := OneHotEncoding.in_range_keys (labelsIn.map conv) output
  rw [List.length_map] at h1 h2 h3
  refine ⟨?_, ?_, ?_, rfl⟩
  · intro i e he
    rw [OneHotEncoding.mapLoop_eq, List.map_take] at he
    rw [OneHotEncoding.mapLoop_eq]
    exact h1 i e he
  · intro i hi
    rw [OneHotEncoding.mapLoop_eq]
    exact h2 i hi
  · rw [OneHotEncoding.OneHotEncoding_eq, OneHotEncoding.mapLoop_eq]
    exact h3

/-! ## Theorems on the sine function and on the encoding by row indices -/

/-- C14: reading `double` as the real numbers (`std::sin` as the real sine,
`std::cos` as the real cosine), `Fn(x) = sin x` for every real `x`, `Fn` is
differentiable at `x`, and its derivative there is `Deriv(x) = cos x`. -/
theorem SinFunction_Deriv_is_derivative (x : ℝ) :
    ann.SinFunction.Fn Real.sin x = Real.sin x ∧
    DifferentiableAt ℝ (ann.SinFunction.Fn Real.sin) x ∧
    HasDerivAt (ann.SinFunction.Fn Real.sin) (ann.SinFunction.Deriv Real.cos x) x ∧
    deriv (ann.SinFunction.Fn Real.sin) x = ann.SinFunction.Deriv Real.cos x ∧
    ann.SinFunction.Deriv Real.cos x = Real.cos x := by
  have h : HasDerivAt (ann.SinFunction.Fn Real.sin) (ann.SinFunction.Deriv Real.cos x) x :=
    Real.hasDerivAt_sin x
  exact ⟨rfl, h.differentiableAt, h, h.deriv, rfl⟩

namespace OneHotEncodingIndices

theorem indicesAt_length (indices : List Nat) :
    indicesAt indices indices.length = .error (.indices indices.length) := by
  simp [indicesAt]

theorem body_fault (shed_row : Mat → Nat → Except Fault Mat)
    (insert_rows : Mat → Nat → Mat → Except Fault Mat)
    (input : Mat) (indices : List Nat) (labels : List Nat) (output : Mat)
    (hl : labels.length = input.n_cols) :
    body shed_row insert_rows input indices indices.length labels output
      = .error (.indices indices.length) := by
  unfold body
  cases hc : input.n_cols with
  | zero =>
    have hnil : labels = [] := List.length_eq_zero.mp (hl.trans hc)
    subst hnil
    simp [labelLoop, fillLoop, indicesAt_length, Except.bind]
  | succ k =>
    simp [labelLoop, indicesAt_length, Except.bind]

end OneHotEncodingIndices

/-- C15: in `OneHotEncoding(input, indices, output)` the condition of the
outer loop assigns `indices.n_elem` to `row`.  Whatever `shed_row` and
`insert_rows` do, the call returns normally if and only if `indices` is
empty, and then `output` equals `input`; for a non-empty `indices` the first
loop body ends with the read of `indices` at position `indices.n_elem`,
which is out of range, and no position below is visited. -/
theorem OneHotEncodingIndices_assignment_condition
    (shed_row : Mat → Nat → Except Fault Mat)
    (insert_rows : Mat → Nat → Mat → Except Fault Mat)
    (fuel : Nat) (input : Mat) (indices : List Nat) (output : Mat) :
    OneHotEncodingIndices shed_row insert_rows (fuel + 1) input indices output
      = (if indices = [] then some (.ok input)
         else some (.error (.indices indices.length))) ∧
    ((∃ out, OneHotEncodingIndices shed_row insert_rows (fuel + 1) input indices output
        = some (.ok out)) ↔ indices = []) := by
  have hmain : OneHotEncodingIndices shed_row insert_rows (fuel + 1) input indices output
      = (if indices = [] then some (.ok input)
         else some (.error (.indices indices.length))) := by
    unfold OneHotEncodingIndices
    by_cases hi : indices = []
    · subst hi
      simp [OneHotEncodingIndices.outerLoop]
    · have hlen : indices.length ≠ 0 := fun h => hi (List.length_eq_zero.mp h)
      rw [if_neg hi]
      simp only [OneHotEncodingIndices.outerLoop, hlen, ne_eq, not_false_eq_true, if_true,
        OneHotEncodingIndices.body_fault shed_row insert_rows input indices _ input
          (List.length_replicate _ _)]
  refine ⟨hmain, ?_⟩
  rw [hmain]
  by_cases hi : indices = []
  · simp [hi]
  · simp [hi]

/-! ## Lemmas on association lists and on `word2vec::Fit` -/

theorem assoc_getElem_of_maps {α β : Type} (m : List (α × β)) (ks : List α) (vs : List β)
    (hk : m.map Prod.fst = ks) (hv : m.map Prod.snd = vs) (i : Nat) (a : α) (b : β)
    (ha : ks[i]? = some a) (hb : vs[i]? = some b) : (a, b) ∈ m := by
  subst hk hv
  rw [List.getElem?_map] at ha hb
  cases hm : m[i]? with
  | none => rw [hm] at ha; exact Option.noConfusion ha
  | some e =>
    rw [hm] at ha hb
    simp only [Option.map_some', Option.some.injEq] at ha hb
    have : e = (a, b) := Prod.ext ha hb
    rw [← this]
    exact List.mem_iff_getElem?.mpr ⟨i, hm⟩

section Assoc

variable {α β : Type} [DecidableEq α]

theorem assoc_lookup_isSome_iff (m : List (α × β)) (x : α) :
    (m.lookup x).isSome = true ↔ x ∈ m.map Prod.fst := by
  induction m with
  | nil => simp
  | cons e es ih =>
    obtain ⟨k, v⟩ := e
    rw [List.lookup_cons]
    by_cases h : x = k
    · subst h
      simp
    · have hb : (x == k) = false := by simpa using h
      simp [hb, ih, h]

theorem assoc_lookup_of_mem (m : List (α × β)) (hnd : (m.map Prod.fst).Nodup) (e : α × β)
    (he : e ∈ m) : m.lookup e.1 = some e.2 := by
  induction m with
  | nil => simp at he
  | cons a as ih =>
    obtain ⟨k, v⟩ := a
    rw [List.map_cons, List.nodup_cons] at hnd
    rw [List.lookup_cons]
    rcases List.mem_cons.mp he with rfl | hmem
    · simp
    · have hne : ¬ e.1 = k := by
        intro hk
        have hin : e.1 ∈ as.map Prod.fst := List.mem_map_of_mem Prod.fst hmem
        rw [hk] at hin
        exact hnd.1 hin
      have hb : (e.1 == k) = false := by simpa using hne
      rw [hb]
      exact ih hnd.2 hmem

theorem assoc_mem_of_lookup (m : List (α × β)) (k : α) (v : β) (h : m.lookup k = some v) :
    (k, v) ∈ m := by
  induction m with
  | nil => simp at h
  | cons a as ih =>
    obtain ⟨k', v'⟩ := a
    rw [List.lookup_cons] at h
    by_cases hk : k = k'
    · subst hk
      simp only [beq_self_eq_true, Option.some.injEq] at h
      subst h
      exact List.mem_cons_self _ _
    · have hb : (k == k') = false := by simpa using hk
      rw [hb] at h
      exact List.mem_cons_of_mem _ (ih h)

end Assoc

namespace word2vec

theorem inv_fresh (windowSize : Nat) : Inv (new windowSize) :=
  ⟨rfl, rfl, rfl, rfl, rfl⟩

theorem firstSeen_append_singleton (l : List (List Byte)) (t : List Byte) :
    firstSeen (l ++ [t]) = insertNew (firstSeen l) t := by
  simp [firstSeen, List.foldl_append]

theorem record_spec (token : List Byte) (st : word2vec) (h : Inv st) :
    Inv (record token st) ∧
      (record token st).tokenizedcorpus = st.tokenizedcorpus ++ [token] ∧
      (record token st).windowSize = st.windowSize := by
  have hiff := LabelMap.lookup_isSome_iff st.mapping token
  rw [h.map_keys] at hiff
  cases hl : assocFind st.mapping token with
  | some v =>
    have hmem : token ∈ st.tokens := by
      apply hiff.mp
      unfold assocFind at hl
      rw [hl]
      rfl
    have hrec : record token st
        = { st with tokenizedcorpus := st.tokenizedcorpus ++ [token] } := by
      unfold record
      simp [hl]
    rw [hrec]
    refine ⟨⟨?_, h.map_keys, h.map_ids, h.rev_keys, h.rev_tokens⟩, rfl, rfl⟩
    show st.tokens = firstSeen (st.tokenizedcorpus ++ [token])
    rw [firstSeen_append_singleton, ← h.tokens_eq, insertNew, if_pos hmem]
  | none =>
    have hl' := hl
    unfold assocFind at hl'
    have hmem : token ∉ st.tokens := by
      intro hm
      have := hiff.mpr hm
      rw [hl'] at this
      exact Bool.noConfusion this
    have hriff := assoc_lookup_isSome_iff st.reverseMapping st.tokens.length
    rw [h.rev_keys] at hriff
    have hrl : assocFind st.reverseMapping st.tokens.length = none := by
      cases hr : assocFind st.reverseMapping st.tokens.length with
      | none => rfl
      | some v =>
        unfold assocFind at hr
        exact absurd (hriff.mp (by rw [hr]; rfl)) List.not_mem_range_self
    unfold assocFind at hrl
    have hrec : record token st
        = { st with
            tokenizedcorpus := st.tokenizedcorpus ++ [token]
            tokens := st.tokens ++ [token]
            mapping := st.mapping ++ [(token, st.tokens.length)]
            reverseMapping := st.reverseMapping ++ [(st.tokens.length, token)] } := by
      unfold record
      simp [hl, hl', hrl, LabelMap.assign, assocAssign, sizeSub_succ_one]
    rw [hrec]
    refine ⟨⟨?_, ?_, ?_, ?_, ?_⟩, rfl, rfl⟩
    · show st.tokens ++ [token] = firstSeen (st.tokenizedcorpus ++ [token])
      rw [firstSeen_append_singleton, ← h.tokens_eq, insertNew, if_neg hmem]
    · simp [h.map_keys]
    · simp [h.map_ids, List.range_succ]
    · simp [h.rev_keys, List.range_succ]
    · simp [h.rev_tokens]

theorem fitLoop_spec (tokenizer : Tokenizer) :
    ∀ (fuel : Nat) (strView : List Byte) (st st' : word2vec), Inv st →
      fitLoop tokenizer fuel strView st = some st' →
      Inv st' ∧ st'.windowSize = st.windowSize ∧
        ∃ toks, tokenSequence tokenizer fuel strView = some toks ∧
          st'.tokenizedcorpus = st.tokenizedcorpus ++ toks := by
  intro fuel
  induction fuel with
  | zero => intro strView st st' _ h; exact Option.noConfusion h
  | succ fuel ih =>
    intro strView st st' hinv h
    rw [fitLoop] at h
    rw [tokenSequence]
    cases ht : tokenizer strView with
    | none => rw [ht] at h; exact Option.noConfusion h
    | some r =>
      obtain ⟨token, rest⟩ := r
      rw [ht] at h
      simp only at h ⊢
      by_cases he : token.isEmpty = true
      · rw [if_pos he] at h
        rw [if_pos he]
        have : st = st' := Option.some.inj h
        subst this
        exact ⟨hinv, rfl, [], rfl, by simp⟩
      · rw [if_neg he] at h
        rw [if_neg he]
        obtain ⟨hrinv, hrtc, hrw⟩ := record_spec token st hinv
        obtain ⟨h1, h2, toks, h3, h4⟩ := ih rest (record token st) st' hrinv h
        refine ⟨h1, by rw [h2, hrw], token :: toks, by rw [h3]; rfl, ?_⟩
        rw [h4, hrtc]
        simp

theorem fitLoop_total (tokenizer : Tokenizer) :
    ∀ (fuel : Nat) (strView : List Byte) (st : word2vec) (toks : List (List Byte)),
      tokenSequence tokenizer fuel strView = some toks →
      ∃ st', fitLoop tokenizer fuel strView st = some st' := by
  intro fuel
  induction fuel with
  | zero => intro strView st toks h; exact Option.noConfusion h
  | succ fuel ih =>
    intro strView st toks h
    rw [tokenSequence] at h
    rw [fitLoop]
    cases ht : tokenizer strView with
    | none => rw [ht] at h; exact Option.noConfusion h
    | some r =>
      obtain ⟨token, rest⟩ := r
      rw [ht] at h
      simp only at h ⊢
      by_cases he : token.isEmpty = true
      · rw [if_pos he]
        exact ⟨st, rfl⟩
      · rw [if_neg he] at h
        rw [if_neg he]
        cases hs : tokenSequence tokenizer fuel rest with
        | none => rw [hs] at h; exact Option.noConfusion h
        | some toks' => exact ih rest _ toks' hs

theorem foldl_touch_of_mem (keys : List (List Byte)) (m : LabelMap (List Byte))
    (h : ∀ k ∈ keys, k ∈ m.map Prod.fst) : keys.foldl LabelMap.touch m = m := by
  induction keys with
  | nil => rfl
  | cons k ks ih =>
    have hk := (LabelMap.lookup_isSome_iff m k).mpr (h k (List.mem_cons_self _ _))
    rw [List.foldl_cons]
    have : LabelMap.touch m k = m := by
      unfold LabelMap.touch
      rw [if_pos hk]
    rw [this]
    exact ih (fun k' hk' => h k' (List.mem_cons_of_mem _ hk'))

theorem mem_createKeys (tc : List (List Byte)) (windowSize : Nat) :
    ∀ k ∈ createKeys tc windowSize, k ∈ tc := by
  intro k hk
  unfold createKeys at hk
  rw [List.mem_flatMap] at hk
  obtain ⟨i, _, hk⟩ := hk
  rw [List.mem_append] at hk
  have hof : ∀ n : Nat, k ∈ tc[n]?.toList → k ∈ tc := by
    intro n hn
    rw [Option.mem_toList] at hn
    exact List.mem_iff_getElem?.mpr ⟨n, hn⟩
  rcases hk with hk | hk
  · exact hof i hk
  · rw [List.mem_flatMap] at hk
    obtain ⟨j, _, hk⟩ := hk
    rw [List.mem_append] at hk
    rcases hk with hk | hk
    · split at hk
      · exact hof _ hk
      · simp at hk
    · split at hk
      · exact hof _ hk
      · simp at hk

theorem Create_eq (st : word2vec) (h : Inv st) : Create st = st := by
  unfold Create
  rw [foldl_touch_of_mem]
  intro k hk
  rw [h.map_keys, h.tokens_eq, mem_firstSeen]
  exact mem_createKeys _ _ k hk

theorem tokenSequence_call (t : SplitByAnyOf) :
    ∀ fuel s, tokenSequence t.call fuel s = t.drainLoop fuel s := by
  intro fuel
  induction fuel with
  | zero => intro s; rfl
  | succ fuel ih =>
    intro s
    rw [tokenSequence, SplitByAnyOf.drainLoop]
    cases t.call s with
    | none => rfl
    | some r =>
      obtain ⟨token, rest⟩ := r
      simp only [SplitByAnyOf.IsTokenEmpty, ih]

end word2vec

/-- C20: after `word2vec::Fit` on a fresh object, for every corpus and
tokenizer for which `Fit` returns: `tokenizedcorpus` is the full sequence of
the tokens returned by the tokenizer, in order; `tokens` holds its distinct
tokens without repetition in first-seen order; `mapping` sends `tokens[k]`
to `k` and `reverseMapping` sends `k` back to `tokens[k]`; the ids are
exactly `0 .. tokens.size() - 1`, `mapping` is injective and every element
of `tokenizedcorpus` is a key of `mapping`.  With a `SplitByAnyOf`
tokenizer, `Fit` returns within `|corpus| + 1` tokenizer calls. -/
theorem Fit_vocabulary (tokenizer : Tokenizer) (windowSize fuel : Nat) (corpus : List Byte)
    (st : word2vec)
    (h : word2vec.Fit tokenizer fuel corpus (word2vec.new windowSize) = some st) :
    tokenSequence tokenizer fuel corpus = some st.tokenizedcorpus ∧
    FirstSeenOrder st.tokens st.tokenizedcorpus ∧
    (∀ (k : Nat) (t : List Byte), st.tokens[k]? = some t →
      assocFind st.mapping t = some k ∧ assocFind st.reverseMapping k = some t) ∧
    st.mapping.map Prod.fst = st.tokens ∧
    st.mapping.map Prod.snd = List.range st.tokens.length ∧
    (∀ (t1 t2 : List Byte) (id : Nat), assocFind st.mapping t1 = some id →
      assocFind st.mapping t2 = some id → t1 = t2) ∧
    (∀ t ∈ st.tokenizedcorpus, (assocFind st.mapping t).isSome = true) ∧
    (∀ D : List Byte, ∃ st', word2vec.Fit (SplitByAnyOf.new D).call (corpus.length + 1) corpus
        (word2vec.new windowSize) = some st' ∧ st'.tokenizedcorpus = splitRuns D corpus) := by
  have hfit : ∀ (tk : Tokenizer) (f : Nat) (s : word2vec),
      word2vec.Fit tk f corpus (word2vec.new windowSize) = some s →
      word2vec.Inv s ∧ tokenSequence tk f corpus = some s.tokenizedcorpus := by
    intro tk f s hs
    unfold word2vec.Fit at hs
    cases hl : word2vec.fitLoop tk f corpus (word2vec.new windowSize) with
    | none => rw [hl] at hs; exact Option.noConfusion hs
    | some st0 =>
      rw [hl] at hs
      obtain ⟨hinv, _, toks, htoks, htc⟩ :=
        word2vec.fitLoop_spec tk f corpus _ st0 (word2vec.inv_fresh windowSize) hl
      have hst : st0 = s := by
        have := Option.some.inj hs
        rw [word2vec.Create_eq st0 hinv] at this
        exact this
      subst hst
      refine ⟨hinv, ?_⟩
      rw [htoks, htc]
      rfl
  obtain ⟨hinv, hseq⟩ := hfit tokenizer fuel st h
  have hnd : st.tokens.Nodup := hinv.tokens_eq ▸ nodup_firstSeen _
  refine ⟨hseq, hinv.tokens_eq ▸ firstSeenOrder_firstSeen _, ?_, hinv.map_keys, hinv.map_ids,
    ?_, ?_, ?_⟩
  · intro k t hk
    have hkl : k < st.tokens.length := (List.getElem?_eq_some.mp hk).1
    have hrange : (List.range st.tokens.length)[k]? = some k := by
      rw [List.getElem?_range hkl]
    constructor
    · exact LabelMap.lookup_of_mem st.mapping (hinv.map_keys ▸ hnd) (t, k)
        (assoc_getElem_of_maps _ _ _ hinv.map_keys hinv.map_ids k t k hk hrange)
    · exact assoc_lookup_of_mem st.reverseMapping (hinv.rev_keys ▸ List.nodup_range _) (k, t)
        (assoc_getElem_of_maps _ _ _ hinv.rev_keys hinv.rev_tokens k k t hrange hk)
  · intro t1 t2 id h1 h2
    have hm1 := assoc_mem_of_lookup st.mapping t1 id h1
    have hm2 := assoc_mem_of_lookup st.mapping t2 id h2
    have hinj := List.inj_on_of_nodup_map (f := Prod.snd) (l := st.mapping)
      (hinv.map_ids ▸ List.nodup_range _) hm1 hm2 rfl
    exact congrArg Prod.fst hinj
  · intro t ht
    apply (LabelMap.lookup_isSome_iff st.mapping t).mpr
    rw [hinv.map_keys, hinv.tokens_eq, mem_firstSeen]
    exact ht
  · intro D
    have hdrain := SplitByAnyOf.drainLoop_eq (SplitByAnyOf.new D) (corpus.length + 1) corpus
      (Nat.lt_succ_self _)
    rw [← word2vec.tokenSequence_call, SplitByAnyOf.runs_new] at hdrain
    obtain ⟨st0, hst0⟩ := word2vec.fitLoop_total (SplitByAnyOf.new D).call (corpus.length + 1)
      corpus (word2vec.new windowSize) _ hdrain
    have hF : word2vec.Fit (SplitByAnyOf.new D).call (corpus.length + 1) corpus
        (word2vec.new windowSize) = some (word2vec.Create st0) := by
      unfold word2vec.Fit
      rw [hst0]
      rfl
    refine ⟨_, hF, ?_⟩
    have := (hfit _ _ _ hF).2
    rw [hdrain] at this
    exact (Option.some.inj this).symm

/-- Witness of C20: fitting the corpus "a b a" split at blanks gives the
tokens a, b with the ids 0, 1 and the corpus a, b, a. -/
theorem Fit_vocabulary_witness :
    word2vec.Fit (SplitByAnyOf.new (bytes " ")).call 6 (bytes "a b a") (word2vec.new 2)
      = some ⟨[(bytes "a", 0), (bytes "b", 1)], [(0, bytes "a"), (1, bytes "b")],
          [bytes "a", bytes "b"], [bytes "a", bytes "b", bytes "a"], 2⟩ ∧
    tokenSequence (SplitByAnyOf.new (bytes " ")).call 6 (bytes "a b a")
      = some [bytes "a", bytes "b", bytes "a"] ∧
    FirstSeenOrder [bytes "a", bytes "b"] [bytes "a", bytes "b", bytes "a"] :=
  have h : word2vec.Fit (SplitByAnyOf.new (bytes " ")).call 6 (bytes "a b a")
      (word2vec.new 2)
      = some ⟨[(bytes "a", 0), (bytes "b", 1)], [(0, bytes "a"), (1, bytes "b")],
          [bytes "a", bytes "b"], [bytes "a", bytes "b", bytes "a"], 2⟩ := by decide
  ⟨h, (Fit_vocabulary _ 2 6 (bytes "a b a") _ h).1, (Fit_vocabulary _ 2 6 (bytes "a b a") _ h).2.1⟩

/-! ## Lemmas on the dictionary and on the orchestrator -/

namespace StringEncodingDictionary

variable {τ : Type} [DecidableEq τ]

theorem inv_empty (first : Nat) : Inv first (new first : StringEncodingDictionary τ) where
  nodup := by simp [keys, new]
  val := by simp [keys, new]
  next := by simp [keys, new]

theorem Insert_spec (first : Nat) (d : StringEncodingDictionary τ) (t : τ) (h : Inv first d) :
    Inv first (d.Insert t).2 ∧ keys (d.Insert t).2 = insertNew (keys d) t ∧
      (d.Insert t).1 = first + (keys (d.Insert t).2).indexOf t := by
  have hiff := LabelMap.lookup_isSome_iff d.mapping t
  cases hl : assocFind d.mapping t with
  | some id =>
    have hl' := hl
    unfold assocFind at hl'
    have hmem : t ∈ keys d := hiff.mp (by rw [hl']; rfl)
    have hins : d.Insert t = (id, d) := by
      unfold Insert Find
      rw [hl]
    have hid : id = first + (keys d).indexOf t := by
      have := h.val t hmem
      rw [hl'] at this
      exact Option.some.inj this
    rw [hins]
    exact ⟨h, by rw [insertNew, if_pos hmem], hid⟩
  | none =>
    have hl' := hl
    unfold assocFind at hl'
    have hmem : t ∉ keys d := by
      intro hm
      have := hiff.mpr hm
      rw [hl'] at this
      exact Bool.noConfusion this
    have hins : d.Insert t = (d.next_id, ⟨d.mapping ++ [(t, d.next_id)], d.next_id + 1⟩) := by
      unfold Insert Find
      rw [hl]
    have hkeys : keys (⟨d.mapping ++ [(t, d.next_id)], d.next_id + 1⟩ :
        StringEncodingDictionary τ) = keys d ++ [t] := by
      simp [keys]
    rw [hins]
    refine ⟨⟨?_, ?_, ?_⟩, by rw [hkeys, insertNew, if_neg hmem], ?_⟩
    · rw [hkeys]
      refine List.Nodup.append h.nodup (List.nodup_singleton t) ?_
      intro a ha hat
      rw [List.mem_singleton] at hat
      exact hmem (hat ▸ ha)
    · intro y hy
      rw [hkeys] at hy ⊢
      show (d.mapping ++ [(t, d.next_id)]).lookup y = _
      by_cases hyk : y ∈ keys d
      · rw [LabelMap.lookup_append_of_mem _ _ _ hyk, List.indexOf_append_of_mem hyk]
        exact h.val y hyk
      · have hyt : y = t := by
          rcases List.mem_append.mp hy with h1 | h1
          · exact absurd h1 hyk
          · simpa using h1
        subst hyt
        rw [LabelMap.lookup_append_of_not_mem _ _ _ hyk, List.indexOf_append_of_not_mem hyk]
        simp [List.lookup_cons, h.next]
    · rw [hkeys]
      simp [h.next]
      omega
    · show d.next_id = first + (keys _).indexOf t
      rw [hkeys, List.indexOf_append_of_not_mem hmem, h.next]
      simp

end StringEncodingDictionary

namespace StringEncoding

variable {τ : Type} [DecidableEq τ]

open StringEncodingDictionary in
theorem encodeTokens_spec (first : Nat) (ts : List τ) :
    ∀ d : StringEncodingDictionary τ, StringEncodingDictionary.Inv first d →
      StringEncodingDictionary.Inv first (encodeTokens ts d).2 ∧
      keys (encodeTokens ts d).2 = ts.foldl insertNew (keys d) ∧
      ∀ ext, (encodeTokens ts d).1
        = ts.map fun t => first + (keys (encodeTokens ts d).2 ++ ext).indexOf t := by
  induction ts with
  | nil =>
    intro d h
    exact ⟨h, rfl, fun _ => rfl⟩
  | cons t ts ih =>
    intro d h
    obtain ⟨h1, hk1, hid⟩ := Insert_spec first d t h
    obtain ⟨h2, hk2, hids⟩ := ih (d.Insert t).2 h1
    have hmem : t ∈ keys (d.Insert t).2 := by
      rw [hk1, insertNew]
      split
      · assumption
      · simp
    obtain ⟨e, he⟩ := foldl_insertNew_extends ts (keys (d.Insert t).2)
    refine ⟨h2, by rw [encodeTokens, hk2, hk1, List.foldl_cons], ?_⟩
    intro ext
    show (d.Insert t).1 :: (encodeTokens ts (d.Insert t).2).1 = _
    rw [List.map_cons, hids ext, hid]
    congr 2
    show _ = List.indexOf t (keys (encodeTokens ts (d.Insert t).2).2 ++ ext)
    rw [hk2, he, List.append_assoc, List.indexOf_append_of_mem hmem]

open StringEncodingDictionary in
theorem encodeStrings_spec (first : Nat) (tss : List (List τ)) :
    ∀ d : StringEncodingDictionary τ, StringEncodingDictionary.Inv first d →
      StringEncodingDictionary.Inv first (encodeStrings tss d).2 ∧
      keys (encodeStrings tss d).2 = tss.flatten.foldl insertNew (keys d) ∧
      ∀ ext, (encodeStrings tss d).1
        = tss.map fun ts => ts.map fun t =>
            first + (keys (encodeStrings tss d).2 ++ ext).indexOf t := by
  induction tss with
  | nil =>
    intro d h
    exact ⟨h, rfl, fun _ => rfl⟩
  | cons ts tss ih =>
    intro d h
    obtain ⟨h1, hk1, hids1⟩ := encodeTokens_spec first ts d h
    obtain ⟨h2, hk2, hids2⟩ := ih (encodeTokens ts d).2 h1
    obtain ⟨e, he⟩ := foldl_insertNew_extends tss.flatten (keys (encodeTokens ts d).2)
    refine ⟨h2, ?_, ?_⟩
    · show keys (encodeStrings tss (encodeTokens ts d).2).2 = _
      rw [hk2, hk1, List.flatten_cons, List.foldl_append]
    · intro ext
      show (encodeTokens ts d).1 :: (encodeStrings tss (encodeTokens ts d).2).1 = _
      rw [List.map_cons, hids2 ext, hids1 (e ++ ext)]
      congr 2
      show _ = fun t => first + List.indexOf t
        (keys (encodeStrings tss (encodeTokens ts d).2).2 ++ ext)
      rw [hk2, he, List.append_assoc]

open StringEncodingDictionary in
/-- The orchestrator on a fresh dictionary: the tokens of the dictionary are
the first-seen list of all tokens, and every row lists `first` plus the
position of its tokens in that list. -/
theorem encodeStrings_fresh (first : Nat) (tss : List (List τ)) :
    keys (encodeStrings tss (new first)).2 = firstSeen tss.flatten ∧
    (encodeStrings tss (new first)).2.Size = (firstSeen tss.flatten).length ∧
    (((encodeStrings tss (new first)).2.mapping.map Prod.snd)
      = List.range' first (firstSeen tss.flatten).length) ∧
    (encodeStrings tss (new first)).1
      = tss.map fun ts => ts.map fun t => first + (firstSeen tss.flatten).indexOf t := by
  obtain ⟨hinv, hk, hids⟩ := encodeStrings_spec first tss (new first) (inv_empty first)
  have hk' : keys (encodeStrings tss (new first)).2 = firstSeen tss.flatten := hk
  have hfin := hids []
  rw [List.append_nil, hk'] at hfin
  refine ⟨hk', ?_, ?_, hfin⟩
  · rw [← hk']
    simp [Size, keys]
  · rw [← hk']
    generalize (encodeStrings tss (new first)).2 = D at hinv
    apply List.ext_getElem
    · simp [keys]
    · intro i h1 h2
      have hi : i < D.mapping.length := by simpa using h1
      have hik : i < (keys D).length := by simpa [keys] using hi
      rw [List.getElem_range', Nat.one_mul, List.getElem_map]
      have hmem : D.mapping[i] ∈ D.mapping := List.getElem_mem _
      have hl := LabelMap.lookup_of_mem _ hinv.nodup _ hmem
      have hkey : D.mapping[i].1 = (keys D)[i] := by simp [keys]
      rw [hinv.val _ (List.mem_map_of_mem Prod.fst hmem), Option.some.injEq, hkey,
        List.indexOf_getElem hinv.nodup] at hl
      exact hl.symm

end StringEncoding

/-! ## Lemmas on the bag-of-words policy -/

section Occurrences

variable {τ : Type} [DecidableEq τ]

theorem occurrences_nil (t : τ) : occurrences t [] = 0 := rfl

theorem occurrences_cons (t a : τ) (ts : List τ) :
    occurrences t (a :: ts) = occurrences t ts + if a = t then 1 else 0 := by
  unfold occurrences
  rw [List.count_cons]
  simp only [beq_iff_eq]

end Occurrences

namespace BagOfWordsEncodingPolicy

theorem bow_encodeRowFrom_spec (r : Nat) (ids : List Nat) :
    ∀ (c0 : Nat) (out : Mat), out.WF → r < out.n_rows → (∀ id ∈ ids, id < out.n_cols) →
      ∃ out', encodeRowFrom r ids c0 out = some out' ∧ out'.n_rows = out.n_rows ∧
        out'.n_cols = out.n_cols ∧ out'.WF ∧
        ∀ r' c', r' < out.n_rows →
          out'.entry r' c' = out.entry r' c' + if r' = r then occurrences c' ids else 0 := by
  induction ids with
  | nil =>
    intro c0 out hwf _ _
    refine ⟨out, rfl, rfl, rfl, hwf, ?_⟩
    intro r' c' _
    simp [occurrences_nil]
  | cons id ids ih =>
    intro c0 out hwf hr hids
    obtain ⟨o1, h1, hR1, hC1, hwf1, he1⟩ :=
      Mat.put_spec out r id (out.entry r id + 1) hwf hr (hids id (List.mem_cons_self _ _))
    obtain ⟨o2, h2, hR2, hC2, hwf2, he2⟩ := ih (c0 + 1) o1 hwf1 (by omega)
      (fun x hx => by rw [hC1]; exact hids x (List.mem_cons_of_mem _ hx))
    refine ⟨o2, by rw [encodeRowFrom, Encode, h1]; exact h2, by omega, by omega, hwf2, ?_⟩
    intro r' c' hr'
    rw [he2 r' c' (by omega), he1 r' c' hr', occurrences_cons]
    by_cases hrr : r' = r
    · subst hrr
      by_cases hci : c' = id
      · subst hci
        rw [if_pos ⟨rfl, rfl⟩, if_pos rfl, if_pos rfl, if_pos rfl]
        omega
      · have hne : ¬ id = c' := fun h => hci h.symm
        rw [if_neg (fun h => hci h.2), if_pos rfl, if_pos rfl, if_neg hne]
        omega
    · rw [if_neg (fun h => hrr h.1), if_neg hrr, if_neg hrr]

theorem bow_encodeRowsFrom_spec (rows : List (List Nat)) :
    ∀ (r0 : Nat) (out : Mat), out.WF → r0 + rows.length ≤ out.n_rows →
      (∀ ids ∈ rows, ∀ id ∈ ids, id < out.n_cols) →
      ∃ out', encodeRowsFrom rows r0 out = some out' ∧ out'.n_rows = out.n_rows ∧
        out'.n_cols = out.n_cols ∧ out'.WF ∧
        ∀ r' c', r' < out.n_rows →
          out'.entry r' c' = out.entry r' c' +
            if r0 ≤ r' then occurrences c' (rows.getD (r' - r0) []) else 0 := by
  induction rows with
  | nil =>
    intro r0 out hwf _ _
    refine ⟨out, rfl, rfl, rfl, hwf, ?_⟩
    intro r' c' _
    simp [occurrences_nil]
  | cons ids rest ih =>
    intro r0 out hwf hr hlen
    simp only [List.length_cons] at hr
    obtain ⟨o1, h1, hR1, hC1, hwf1, he1⟩ :=
      bow_encodeRowFrom_spec r0 ids 0 out hwf (by omega) (hlen ids (List.mem_cons_self _ _))
    obtain ⟨o2, h2, hR2, hC2, hwf2, he2⟩ := ih (r0 + 1) o1 hwf1 (by omega)
      (fun x hx => by rw [hC1]; exact hlen x (List.mem_cons_of_mem _ hx))
    refine ⟨o2, by rw [encodeRowsFrom, h1]; exact h2, by omega, by omega, hwf2, ?_⟩
    intro r' c' hr'
    rw [he2 r' c' (by omega), he1 r' c' hr']
    by_cases hrr : r' = r0
    · subst hrr
      have hn : ¬ (r' + 1 ≤ r') := by omega
      rw [if_pos rfl, if_neg hn, if_pos (le_refl _), Nat.sub_self, List.getD_cons_zero]
      omega
    · by_cases hge : r0 + 1 ≤ r'
      · have hsub : r' - r0 = (r' - (r0 + 1)) + 1 := by omega
        have hle : r0 ≤ r' := by omega
        rw [if_neg hrr, if_pos hge, if_pos hle, hsub, List.getD_cons_succ]
        omega
      · have hle : ¬ r0 ≤ r' := by omega
        rw [if_neg hrr, if_neg hge, if_neg hle]

theorem bow_foldl_EncodeVector (ids : List Nat) :
    ∀ v : List Nat, ids.foldl EncodeVector v = v ++ ids := by
  induction ids with
  | nil => intro v; simp
  | cons id ids ih =>
    intro v
    rw [List.foldl_cons, ih, EncodeVector]
    simp

end BagOfWordsEncodingPolicy

theorem mem_flatten_of_getElem? {τ : Type} (tss : List (List τ)) (r : Nat) (ts : List τ)
    (h : tss[r]? = some ts) : ∀ t ∈ ts, t ∈ tss.flatten := by
  intro t ht
  rw [List.mem_flatten]
  exact ⟨ts, List.mem_iff_getElem?.mpr ⟨r, h⟩, ht⟩

section Ranks

variable {τ : Type} [DecidableEq τ]

theorem indexOf_eq_iff_of_getElem? (K : List τ) (hnd : K.Nodup) (c : Nat) (t a : τ)
    (ha : a ∈ K) (hc : K[c]? = some t) : 0 + K.indexOf a = c ↔ a = t := by
  obtain ⟨hcl, hct⟩ := List.getElem?_eq_some.mp hc
  constructor
  · intro hidx
    have hlt : K.indexOf a < K.length := List.indexOf_lt_length.mpr ha
    have := List.getElem_indexOf hlt
    have hcc : K.indexOf a = c := by omega
    rw [← this, ← hct]
    congr 1
  · intro hat
    rw [hat, ← hct, List.indexOf_getElem hnd c hcl]
    omega

theorem occurrences_map_indexOf (K : List τ) (hnd : K.Nodup) (c : Nat) (t : τ)
    (hc : K[c]? = some t) (ts : List τ) (hsub : ∀ a ∈ ts, a ∈ K) :
    occurrences c (ts.map fun a => 0 + K.indexOf a) = occurrences t ts := by
  induction ts with
  | nil => rfl
  | cons a ts ih =>
    rw [List.map_cons, occurrences_cons, occurrences_cons,
      ih (fun x hx => hsub x (List.mem_cons_of_mem _ hx))]
    have hiff := indexOf_eq_iff_of_getElem? K hnd c t a (hsub a (List.mem_cons_self _ _)) hc
    by_cases hat : a = t
    · rw [if_pos hat, if_pos (hiff.mpr hat)]
    · rw [if_neg hat, if_neg (fun h => hat (hiff.mp h))]

end Ranks

namespace BowEncoding

variable {σ τ : Type} [DecidableEq τ]

/-- The bag-of-words encoder in closed form: with `K` the first-seen list of
all tokens, the id of a token is the number of distinct tokens met before
it, the dense output is the `n x |K|` matrix whose entry `(r, c)` is the
number of occurrences of `K[c]` among the tokens of string `r`, and the
vector output lists for each string the ids of its tokens. -/
theorem bow_closed_form (input : List σ) (tokenize : σ → List τ) (output : Mat) :
    ∃ out, Encode input tokenize output = some out ∧
      (Dictionary input tokenize).mapping.map Prod.fst
        = firstSeen (input.map tokenize).flatten ∧
      (Dictionary input tokenize).mapping.map Prod.snd
        = List.range' 0 (firstSeen (input.map tokenize).flatten).length ∧
      (∀ t ∈ (input.map tokenize).flatten,
        (Dictionary input tokenize).Find t
          = some (distinctBefore (input.map tokenize).flatten t)) ∧
      out.n_rows = input.length ∧
      out.n_cols = (firstSeen (input.map tokenize).flatten).length ∧
      EncodeVectors input tokenize
        = input.map (fun s => (tokenize s).map fun t =>
            distinctBefore (input.map tokenize).flatten t) ∧
      ∀ r s, input[r]? = some s →
        ∀ c t, (firstSeen (input.map tokenize).flatten)[c]? = some t →
          out.entry r c = occurrences t (tokenize s) := by
  obtain ⟨hk, hsize, hsnd, hrows⟩ :=
    StringEncoding.encodeStrings_fresh 0 (input.map tokenize)
  obtain ⟨hinv, _, _⟩ := StringEncoding.encodeStrings_spec 0 (input.map tokenize)
    (StringEncodingDictionary.new 0) (StringEncodingDictionary.inv_empty 0)
  have hnd := nodup_firstSeen (input.map tokenize).flatten
  have hidlt : ∀ ids ∈ (StringEncoding.encodeStrings (input.map tokenize)
      (StringEncodingDictionary.new 0)).1, ∀ id ∈ ids,
      id < (firstSeen (input.map tokenize).flatten).length := by
    intro ids hids id hid
    rw [hrows, List.mem_map] at hids
    obtain ⟨ts, hts, rfl⟩ := hids
    rw [List.mem_map] at hid
    obtain ⟨t, ht, rfl⟩ := hid
    rw [Nat.zero_add, List.indexOf_lt_length, mem_firstSeen, List.mem_flatten]
    exact ⟨ts, hts, ht⟩
  have hlen : (StringEncoding.encodeStrings (input.map tokenize)
      (StringEncodingDictionary.new 0)).1.length = input.length := by
    rw [hrows]; simp
  have hrank : ∀ ts ∈ input.map tokenize, (ts.map fun t =>
      0 + (firstSeen (input.map tokenize).flatten).indexOf t)
      = ts.map fun t => distinctBefore (input.map tokenize).flatten t := by
    intro ts hts
    apply List.map_congr_left
    intro t ht
    rw [indexOf_firstSeen _ t (List.mem_flatten.mpr ⟨ts, hts, ht⟩), Nat.zero_add]
  have hrows' : (StringEncoding.encodeStrings (input.map tokenize)
      (StringEncodingDictionary.new 0)).1
      = (input.map tokenize).map fun ts => ts.map fun t =>
          distinctBefore (input.map tokenize).flatten t := by
    rw [hrows]
    exact List.map_congr_left hrank
  obtain ⟨out, h, hR, hC, _, he⟩ := BagOfWordsEncodingPolicy.bow_encodeRowsFrom_spec
    (StringEncoding.encodeStrings (input.map tokenize) (StringEncodingDictionary.new 0)).1 0
    (BagOfWordsEncodingPolicy.InitMatrix output input.length
      (DictionaryEncoding.maxRowLength
        (StringEncoding.encodeStrings (input.map tokenize)
          (StringEncodingDictionary.new 0)).1)
      (StringEncoding.encodeStrings (input.map tokenize)
        (StringEncodingDictionary.new 0)).2.Size)
    (Mat.zeros_WF _ _ _)
    (by simp [BagOfWordsEncodingPolicy.InitMatrix, Mat.zeros, hlen])
    (by
      intro ids hids id hid
      simp only [BagOfWordsEncodingPolicy.InitMatrix, Mat.zeros, hsize]
      exact hidlt ids hids id hid)
  refine ⟨out, h, hk, hsnd, ?_,
    by simpa [BagOfWordsEncodingPolicy.InitMatrix, Mat.zeros] using hR,
    by simpa [BagOfWordsEncodingPolicy.InitMatrix, Mat.zeros, hsize] using hC, ?_, ?_⟩
  · intro t ht
    have hmem : t ∈ StringEncodingDictionary.keys (Dictionary input tokenize) := by
      show t ∈ StringEncodingDictionary.keys (StringEncoding.encodeStrings _ _).2
      rw [hk, mem_firstSeen]
      exact ht
    have hval := hinv.val t hmem
    rw [hk, indexOf_firstSeen _ t ht, Nat.zero_add] at hval
    exact hval
  · unfold EncodeVectors
    simp only [hrows', List.map_map]
    apply List.map_congr_left
    intro s _
    simp only [Function.comp, BagOfWordsEncodingPolicy.bow_foldl_EncodeVector,
      List.nil_append]
  · intro r s hs c t hc
    have hr : r < input.length := (List.getElem?_eq_some.mp hs).1
    have hts : (input.map tokenize)[r]? = some (tokenize s) := by
      rw [List.getElem?_map, hs]; rfl
    have hrow : (StringEncoding.encodeStrings (input.map tokenize)
        (StringEncodingDictionary.new 0)).1[r]?
        = some ((tokenize s).map fun t =>
            0 + (firstSeen (input.map tokenize).flatten).indexOf t) := by
      rw [hrows, List.getElem?_map, hts]; rfl
    have hsub : ∀ t ∈ tokenize s, t ∈ firstSeen (input.map tokenize).flatten := by
      intro t ht
      rw [mem_firstSeen]
      exact mem_flatten_of_getElem? _ r _ hts t ht
    have hget : (StringEncoding.encodeStrings (input.map tokenize)
        (StringEncodingDictionary.new 0)).1.getD (r - 0) []
        = (tokenize s).map fun t =>
            0 + (firstSeen (input.map tokenize).flatten).indexOf t := by
      rw [Nat.sub_zero, List.getD_eq_getElem?_getD, hrow]; rfl
    rw [he r c (by simpa [BagOfWordsEncodingPolicy.InitMatrix, Mat.zeros] using hr),
      BagOfWordsEncodingPolicy.InitMatrix, Mat.zeros_entry, if_pos (Nat.zero_le _), hget,
      occurrences_map_indexOf _ hnd c t hc (tokenize s) hsub, Nat.zero_add]

end BowEncoding

/-! ## Theorems on the string encoders -/

namespace DictionaryEncoding

theorem encodeDense_rows (rows : List (List Nat)) (output : Mat) (mappingsSize : Nat) :
    ∃ out, encodeDense rows output rows.length (maxRowLength rows) mappingsSize = some out ∧
      out.n_rows = rows.length ∧ out.n_cols = maxRowLength rows ∧
      ∀ r ids, rows[r]? = some ids →
        out.row r = ids ++ List.replicate (maxRowLength rows - ids.length) 0 := by
  obtain ⟨out, h, hR, hC, he⟩ :=
    encodeDense_spec rows output rows.length (maxRowLength rows) mappingsSize (le_refl _)
      (length_le_maxRowLength rows)
  refine ⟨out, h, hR, hC, ?_⟩
  intro r ids hids
  have hr : r < rows.length := (List.getElem?_eq_some.mp hids).1
  have hget : rows.getD r [] = ids := by
    rw [List.getD_eq_getElem?_getD, hids]; rfl
  have hle := length_le_maxRowLength rows ids (List.mem_iff_getElem?.mpr ⟨r, hids⟩)
  apply List.ext_getElem
  · simp only [Mat.row, hC, List.length_map, List.length_range, List.length_append,
      List.length_replicate]
    omega
  · intro i h1 h2
    simp only [Mat.row, List.getElem_map, List.getElem_range, he r i hr, hget]
    by_cases hi : i < ids.length
    · rw [if_pos hi, List.getElem_append_left hi, List.getD_eq_getElem?_getD,
        List.getElem?_eq_getElem hi]
      rfl
    · rw [if_neg hi, List.getElem_append_right (by omega)]
      simp

end DictionaryEncoding

/-- C12: bag-of-words rows record occurrence counts.  For every input
string and every token `t` of the vocabulary, the bag-of-words entry of that
string's row at the column of `t` (the position of `t` in the vocabulary,
which is its id) equals the number of times `t` occurs in the string;
tokenizing "GACCA" by individual characters gives the counts G:1, A:2,
C:2. -/
theorem BowEncoding_entry_count (input : List (List Byte))
    (tokenize : List Byte → List (List Byte)) (output : Mat) :
    (∃ out, BowEncoding.Encode input tokenize output = some out ∧
      (∀ (r : Nat) (s : List Byte) (c : Nat) (t : List Byte), input[r]? = some s →
        ((BowEncoding.Dictionary input tokenize).mapping.map Prod.fst)[c]? = some t →
        out.entry r c = occurrences t (tokenize s)) ∧
      (∀ (r : Nat) (s : List Byte) (t : List Byte), input[r]? = some s →
        t ∈ (input.map tokenize).flatten →
        ∃ c, (BowEncoding.Dictionary input tokenize).Find t = some c ∧
          out.entry r c = occurrences t (tokenize s))) ∧
    (BowEncoding.Encode [bytes "GACCA"] (tokensOf CharExtract.call) ⟨0, 0, []⟩).map Mat.rows
      = some [[1, 2, 2]] ∧
    (BowEncoding.Dictionary [bytes "GACCA"] (tokensOf CharExtract.call)).mapping
      = [(bytes "G", 0), (bytes "A", 1), (bytes "C", 2)] ∧
    tokensOf CharExtract.call (bytes "GACCA")
      = [bytes "G", bytes "A", bytes "C", bytes "C", bytes "A"] ∧
    occurrences (bytes "G") (tokensOf CharExtract.call (bytes "GACCA")) = 1 ∧
    occurrences (bytes "A") (tokensOf CharExtract.call (bytes "GACCA")) = 2 ∧
    occurrences (bytes "C") (tokensOf CharExtract.call (bytes "GACCA")) = 2 := by
  refine ⟨?_, by decide, by decide, by decide, by decide, by decide, by decide⟩
  obtain ⟨out, h, hk, _, hfind, _, _, _, he⟩ := BowEncoding.bow_closed_form input tokenize output
  refine ⟨out, h, ?_, ?_⟩
  · intro r s c t hs hc
    rw [hk] at hc
    exact he r s hs c t hc
  · intro r s t hs ht
    refine ⟨_, hfind t ht, he r s hs _ t ?_⟩
    exact getElem?_firstSeen_distinctBefore _ t ht

/-- Example of C12: in "GACCA" the token "A" occurs twice, its column is 1
and its entry is 2. -/
theorem BowEncoding_entry_count_witness :
    ∃ out, BowEncoding.Encode StringEncodingTest.input (tokensOf CharExtract.call) ⟨0, 0, []⟩
        = some out ∧
      out.entry 0 1 = occurrences (bytes "A") (tokensOf CharExtract.call (bytes "GACCA")) ∧
      occurrences (bytes "A") (tokensOf CharExtract.call (bytes "GACCA")) = 2 := by
  obtain ⟨⟨out, h, he, _⟩, _⟩ :=
    BowEncoding_entry_count StringEncodingTest.input (tokensOf CharExtract.call) ⟨0, 0, []⟩
  exact ⟨out, h, he 0 (bytes "GACCA") 1 (bytes "A") (by decide) (by decide), by decide⟩

namespace DictionaryEncoding

variable {σ τ : Type} [DecidableEq τ]

/-- The dictionary encoder in closed form: the id of a token is 1 plus the
number of distinct tokens met before it in the corpus, the unpadded rows
list these ids and the padded rows are the same rows followed by zeros. -/
theorem dictionary_closed_form (input : List σ) (tokenize : σ → List τ) (output : Mat) :
    ∃ out, EncodeStrings input tokenize output = some out ∧
      (Mappings input tokenize).mapping.map Prod.fst = firstSeen (input.map tokenize).flatten ∧
      (Mappings input tokenize).mapping.map Prod.snd
        = List.range' 1 (firstSeen (input.map tokenize).flatten).length ∧
      (∀ t ∈ (input.map tokenize).flatten,
        (Mappings input tokenize).Find t
          = some (1 + distinctBefore (input.map tokenize).flatten t)) ∧
      EncodeStringsNoPadding input tokenize
        = input.map (fun s => (tokenize s).map fun t =>
            1 + distinctBefore (input.map tokenize).flatten t) ∧
      out.n_rows = input.length ∧
      ∀ r s, input[r]? = some s →
        out.row r = ((tokenize s).map fun t =>
            1 + distinctBefore (input.map tokenize).flatten t)
          ++ List.replicate (out.n_cols - (tokenize s).length) 0 := by
  obtain ⟨hk, _, hsnd, hrows⟩ := StringEncoding.encodeStrings_fresh 1 (input.map tokenize)
  obtain ⟨hinv, _, _⟩ := StringEncoding.encodeStrings_spec 1 (input.map tokenize)
    (StringEncodingDictionary.new 1) (StringEncodingDictionary.inv_empty 1)
  have hrank : ∀ ts ∈ input.map tokenize, (ts.map fun t =>
      1 + (firstSeen (input.map tokenize).flatten).indexOf t)
      = ts.map fun t => 1 + distinctBefore (input.map tokenize).flatten t := by
    intro ts hts
    apply List.map_congr_left
    intro t ht
    rw [indexOf_firstSeen _ t (List.mem_flatten.mpr ⟨ts, hts, ht⟩)]
  have hrows' : (StringEncoding.encodeStrings (input.map tokenize)
      (StringEncodingDictionary.new 1)).1
      = (input.map tokenize).map fun ts => ts.map fun t =>
          1 + distinctBefore (input.map tokenize).flatten t := by
    rw [hrows]
    exact List.map_congr_left hrank
  obtain ⟨out, h, hR, hC, hrow⟩ := encodeDense_rows
    (StringEncoding.encodeStrings (input.map tokenize) (StringEncodingDictionary.new 1)).1
    output (StringEncoding.encodeStrings (input.map tokenize)
      (StringEncodingDictionary.new 1)).2.Size
  have hlen : (StringEncoding.encodeStrings (input.map tokenize)
      (StringEncodingDictionary.new 1)).1.length = input.length := by
    rw [hrows]; simp
  refine ⟨out, ?_, hk, hsnd, ?_, ?_, by rw [hR, hlen], ?_⟩
  · unfold EncodeStrings
    rw [← hlen]
    exact h
  · intro t ht
    have hmem : t ∈ StringEncodingDictionary.keys (Mappings input tokenize) := by
      show t ∈ StringEncodingDictionary.keys (StringEncoding.encodeStrings _ _).2
      rw [hk, mem_firstSeen]
      exact ht
    have hval := hinv.val t hmem
    rw [hk, indexOf_firstSeen _ t ht] at hval
    exact hval
  · unfold EncodeStringsNoPadding
    simp only [hrows', List.map_map]
    apply List.map_congr_left
    intro s _
    simp only [Function.comp, encodeVector, foldl_EncodeVector, List.nil_append]
  · intro r s hs
    have hids : (StringEncoding.encodeStrings (input.map tokenize)
        (StringEncodingDictionary.new 1)).1[r]?
        = some ((tokenize s).map fun t =>
            1 + distinctBefore (input.map tokenize).flatten t) := by
      rw [hrows', List.getElem?_map, List.getElem?_map, hs]; rfl
    rw [hrow r _ hids, hC]
    simp

end DictionaryEncoding

/-- C13: dictionary encoding end to end.  For every list of input strings
and every tokenizer (given by the tokens it returns for a string), a fresh
`DictionaryEncoding` gives the ids 1, 2, 3, ... to the distinct tokens in
first-seen order across the whole corpus, every token has exactly one id,
the unpadded output lists for each string the ids of its tokens in their
original order, and the padded output holds the same rows followed by
zeros.  The strings "hello@wow" and "wow@hello@good" split at '@' give
[1 2 0, 2 1 3] and [1 2], [2 1 3]. -/
theorem DictionaryEncoding_end_to_end (input : List (List Byte))
    (tokenize : List Byte → List (List Byte)) (output : Mat) :
    (∃ out K, DictionaryEncoding.EncodeStrings input tokenize output = some out ∧
      FirstSeenOrder K (input.map tokenize).flatten ∧
      (DictionaryEncoding.Mappings input tokenize).mapping.map Prod.fst = K ∧
      (DictionaryEncoding.Mappings input tokenize).mapping.map Prod.snd
        = List.range' 1 K.length ∧
      (∀ t ∈ (input.map tokenize).flatten,
        (DictionaryEncoding.Mappings input tokenize).Find t
          = some (1 + distinctBefore (input.map tokenize).flatten t)) ∧
      DictionaryEncoding.EncodeStringsNoPadding input tokenize
        = input.map (fun s => (tokenize s).map fun t =>
            1 + distinctBefore (input.map tokenize).flatten t) ∧
      out.n_rows = input.length ∧
      ∀ r s, input[r]? = some s →
        out.row r = ((tokenize s).map fun t =>
            1 + distinctBefore (input.map tokenize).flatten t)
          ++ List.replicate (out.n_cols - (tokenize s).length) 0) ∧
    (DictionaryEncoding.EncodeStrings [bytes "hello@wow", bytes "wow@hello@good"]
        (tokensOf (SplitByAnyOf.new (bytes "@")).call) ⟨0, 0, []⟩).map Mat.rows
      = some [[1, 2, 0], [2, 1, 3]] ∧
    DictionaryEncoding.EncodeStringsNoPadding [bytes "hello@wow", bytes "wow@hello@good"]
        (tokensOf (SplitByAnyOf.new (bytes "@")).call) = [[1, 2], [2, 1, 3]] := by
  refine ⟨?_, by decide, by decide⟩
  obtain ⟨out, h, hk, hsnd, hfind, hvec, hR, hrow⟩ :=
    DictionaryEncoding.dictionary_closed_form input tokenize output
  exact ⟨out, _, h, firstSeenOrder_firstSeen _, hk, hsnd, hfind, hvec, hR, hrow⟩

/-- Example of C13: in the corpus "hello@wow", "wow@hello@good" the token
"good" is met after two distinct tokens and gets the id 3. -/
theorem DictionaryEncoding_end_to_end_witness :
    (DictionaryEncoding.Mappings [bytes "hello@wow", bytes "wow@hello@good"]
        (tokensOf (SplitByAnyOf.new (bytes "@")).call)).Find (bytes "good") = some 3 := by
  obtain ⟨⟨out, K, _, _, _, _, hfind, _⟩, _⟩ :=
    DictionaryEncoding_end_to_end [bytes "hello@wow", bytes "wow@hello@good"]
      (tokensOf (SplitByAnyOf.new (bytes "@")).call) ⟨0, 0, []⟩
  have h := hfind (bytes "good") (by decide)
  rw [h]
  decide

end mlpack
